import Mathlib

/-!
# Verification of the disagg_optimizer Cascades-style join optimizer

This file is a shallow embedding, in Lean 4, of the core of the
`disagg_optimizer` Rust crate (a Cascades-style cost-based inner-join
reordering optimizer), together with theorems settling a list of claims
about its behaviour.

Embedding conventions:

* The DataFusion `LogicalPlan` / `Expr` node types are external library
  types consumed by the crate as opaque variants of a known shape; they
  are embedded as the inductive types `Node` and `Expr` below carrying
  exactly the fields the crate reads.  `DFSchema` values are opaque to
  the crate (it only passes them to DataFusion helpers), so schemas are
  embedded as an opaque handle type `Schema := Nat`.
* External DataFusion helpers the crate calls
  (`find_valid_equijoin_key_pair`, `build_join_schema`) are oracles:
  they are section parameters of the embedding, so every theorem holds
  for every behaviour of the oracle.
* The 64-bit streaming `Xxh3` fingerprint hash is modelled as a
  parameter `H` from the exact data the crate feeds into the hasher
  (the operand group hashes, in order, then the operator payload) to a
  `Nat` digest.  The payload type `FPayload` records precisely the
  fields `MExpr::build_with_node` hashes for each operator variant.
* Rust `f64` cost/selectivity arithmetic is modelled by exact rational
  arithmetic (`Rat`), with `f64::INFINITY` as an explicit `Cost.inf`
  value; `as u64` casts of non-negative values are modelled as `floor`.
* Rust `HashMap` / `HashSet` iteration order is modelled
  deterministically by first-insertion order (association lists).
* `u64::MAX` is `2 ^ 64 - 1`; row-count arithmetic is carried out in
  `Nat` (overflow behaviour is documented as undefined by the crate).
* Panics (`unwrap` on `Err`, out-of-bounds indexing) are modelled by
  `Except String` error results.
-/

namespace Disagg

/-- Opaque handle standing for a DataFusion `Arc<DFSchema>` value.  The
crate never inspects schemas itself; it only compares, stores and
forwards them to DataFusion helpers, so an opaque handle is faithful. -/
abbrev Schema := Nat

/-- Binary operator of a DataFusion `Expr::BinaryExpr`.  The crate
pattern-matches on `Operator::Eq` and constructs conjunctions with
`Operator::And`; the remaining DataFusion operators are collapsed into
an indexed `other` constructor. -/
inductive BOp where
  | eq : BOp
  | andOp : BOp
  | other : Nat → BOp
deriving DecidableEq

/-- DataFusion `Expr`, restricted to the shapes the crate reads:
qualified/unqualified column references, boolean literals (`lit(true)`),
binary expressions, and an indexed `opaque` constructor standing for
every other `Expr` variant. -/
inductive Expr where
  | column (relation : Option String) (name : String) : Expr
  | boolLit (b : Bool) : Expr
  | binary (left : Expr) (op : BOp) (right : Expr) : Expr
  | opaqueE (k : Nat) : Expr
deriving DecidableEq

/-- DataFusion `JoinType`: the crate constructs and tests `Inner`;
other join types are collapsed into an indexed constructor. -/
inductive JoinType where
  | inner : JoinType
  | other (k : Nat) : JoinType
deriving DecidableEq

/-- DataFusion `JoinConstraint` (`On` / `Using`). -/
inductive JoinConstraint where
  | onC : JoinConstraint
  | usingC : JoinConstraint
deriving DecidableEq

/-- DataFusion `NullEquality`. -/
inductive NullEquality where
  | nullEqualsNothing : NullEquality
  | nullEqualsNull : NullEquality
deriving DecidableEq

/-- The fields of a DataFusion `TableScan` node read (or hashed) by the
crate: the table name, the projected schema and the optional fetch
limit.  `MExpr::build_with_node` hashes the whole `TableScan` struct,
which this value stands for. -/
structure ScanNode where
  table_name : String
  projected_schema : Schema
  fetch : Option Nat
deriving DecidableEq

mutual
/-- DataFusion `LogicalPlan`, restricted to the variants the crate
matches on; every remaining variant is collapsed into the indexed
`opaqueP` constructor (which the crate treats uniformly through its
catch-all `_` match arms). -/
inductive Node where
  | projection (expr : List Expr) (schema : Schema) (input : Node) : Node
  | filterN (predicate : Expr) (input : Node) : Node
  | join (left : Node) (right : Node) (onCl : List (Expr × Expr))
      (filter : Option Expr) (join_type : JoinType)
      (join_constraint : JoinConstraint) (schema : Schema)
      (null_equality : NullEquality) : Node
  | tableScan (ts : ScanNode) : Node
  | aggregate (schema : Schema) (input : Node) : Node
  | sortN (input : Node) : Node
  | limitN (input : Node) : Node
  | unionN (inputs : NodeList) : Node
  | emptyRelation (schema : Schema) : Node
  | opaqueP (k : Nat) : Node

/-- A list of plan nodes (inputs of a `Union` node). -/
inductive NodeList where
  | nil : NodeList
  | cons (head : Node) (tail : NodeList) : NodeList
end

/-- `LogicalPlan::default()` in DataFusion is an `EmptyRelation` over the
empty schema; the crate uses it for the placeholder children of freshly
built join operator nodes.  Schema handle `0` stands for the empty
schema. -/
def Node.defaultNode : Node := Node.emptyRelation 0

/-- True exactly on `LogicalPlan::Join(_)` nodes (the shape test used by
both transformation rules). -/
def Node.isJoin : Node → Bool
  | Node.join .. => true
  | _ => false

/-- `MExpr::get_schema`: walks downward through pass-through operators
(filter, sort, limit, union's first input) until a schema-carrying
operator is found. -/
def Node.getSchema : Node → Option Schema
  | Node.projection _ schema _ => some schema
  | Node.filterN _ input => input.getSchema
  | Node.aggregate schema _ => some schema
  | Node.join _ _ _ _ _ _ schema _ => some schema
  | Node.sortN input => input.getSchema
  | Node.tableScan ts => some ts.projected_schema
  | Node.limitN input => input.getSchema
  | Node.unionN (NodeList.cons first _) => first.getSchema
  | Node.unionN NodeList.nil => none
  | Node.emptyRelation schema => some schema
  | Node.opaqueP _ => none

/-! ## Association lists

Rust `HashMap` / `HashSet` state is embedded as association lists whose
key enumeration order is the first-insertion order (a deterministic
model of the map's iteration order). -/

/-- `HashMap` lookup: the value stored under `k`, if any. -/
def alookup {α β : Type} [DecidableEq α] : List (α × β) → α → Option β
  | [], _ => none
  | (k, v) :: rest, k' => if k' = k then some v else alookup rest k'

/-- `HashMap::insert`: update in place when the key is present (keeping
its position, hence first-insertion enumeration order), else append. -/
def ainsert {α β : Type} [DecidableEq α] : List (α × β) → α → β → List (α × β)
  | [], k, v => [(k, v)]
  | (k0, v0) :: rest, k, v =>
      if k = k0 then (k0, v) :: rest else (k0, v0) :: ainsert rest k v

/-- `HashMap::contains_key`. -/
def acontains {α β : Type} [DecidableEq α] (m : List (α × β)) (k : α) : Bool :=
  (alookup m k).isSome

/-! ## ExpressionUtils (`src/cascades/expression_utils.rs`) -/

/-- `flip_equality`: swaps the two sides of a binary `Eq`; every other
expression is returned unchanged. -/
def flip_equality : Expr → Expr
  | Expr.binary left BOp.eq right => Expr.binary right BOp.eq left
  | e => e

/-- The union-find state of `expression_utils::UnionFind`: a parent map
and a rank map keyed by expressions. -/
structure UnionFind where
  parent : List (Expr × Expr)
  rank : List (Expr × Nat)

/-- `UnionFind::new()`. -/
def UnionFind.empty : UnionFind := ⟨[], []⟩

/-- `UnionFind::find` with path compression.  The Rust recursion
terminates because the parent map is an acyclic forest; the embedding
makes it structurally total with a fuel argument (callers pass
`parent.length + 1`, which is enough fuel for any forest-shaped map, so
on every state reachable through `union` the behaviour agrees with the
source). -/
def UnionFind.find : Nat → UnionFind → Expr → Expr × UnionFind
  | 0, uf, e => (e, uf)
  | fuel + 1, uf, e =>
    match alookup uf.parent e with
    | none =>
        (e, ⟨ainsert uf.parent e e, ainsert uf.rank e 0⟩)
    | some p =>
        if p = e then (e, uf)
        else
          let (root, uf') := UnionFind.find fuel uf p
          (root, ⟨ainsert uf'.parent e root, uf'.rank⟩)

/-- Fuel sufficient for `find` on the current parent map. -/
def UnionFind.fuel (uf : UnionFind) : Nat := uf.parent.length + 1

/-- `UnionFind::union` with union by rank. -/
def UnionFind.union (uf : UnionFind) (a b : Expr) : UnionFind :=
  let (root_a, uf1) := UnionFind.find uf.fuel uf a
  let (root_b, uf2) := UnionFind.find uf1.fuel uf1 b
  if root_a = root_b then uf2
  else
    let rank_a := (alookup uf2.rank root_a).getD 0
    let rank_b := (alookup uf2.rank root_b).getD 0
    if rank_a < rank_b then
      ⟨ainsert uf2.parent root_a root_b, uf2.rank⟩
    else if rank_b < rank_a then
      ⟨ainsert uf2.parent root_b root_a, uf2.rank⟩
    else
      ⟨ainsert uf2.parent root_b root_a, ainsert uf2.rank root_a (rank_a + 1)⟩

/-- `UnionFind::get_equivalence_classes`: groups every seen expression
by its root.  Keys are enumerated in first-insertion order (the
embedding's deterministic model of `HashMap` iteration); each class
lists its members in that enumeration order. -/
def UnionFind.get_equivalence_classes (uf : UnionFind) :
    List (Expr × List Expr) :=
  let all_exprs := uf.parent.map Prod.fst
  (all_exprs.foldl
    (fun (acc : List (Expr × List Expr) × UnionFind) e =>
      let (root, uf') := UnionFind.find acc.2.fuel acc.2 e
      (ainsert acc.1 root ((alookup acc.1 root).getD [] ++ [e]), uf'))
    ([], uf)).1

/-- `get_unique_equalities`: builds a union-find from the given pairs
and returns one representative pair (the first two members, in class
order) per non-singleton equivalence class. -/
def get_unique_equalities (equalities : List (Expr × Expr)) :
    List (Expr × Expr) :=
  let uf := equalities.foldl (fun uf (p : Expr × Expr) => uf.union p.1 p.2)
    UnionFind.empty
  let groups := uf.get_equivalence_classes
  groups.foldl
    (fun acc (g : Expr × List Expr) =>
      match g.2 with
      | e0 :: e1 :: _ =>
          if acc.contains (e0, e1) then acc else acc ++ [(e0, e1)]
      | _ => acc)
    []

/-- All `i < j` pairs of a class, as binary `Eq` expressions, keeping
only those not syntactically present in `original`
(the generation loops of `infer_equalities`). -/
def pairwiseNewEqualities (original : List Expr) : List Expr → List Expr
  | [] => []
  | e0 :: rest =>
      (rest.filterMap (fun e1 =>
        let eq := Expr.binary e0 BOp.eq e1
        if original.contains eq then none else some eq))
      ++ pairwiseNewEqualities original rest

/-- `infer_equalities`: unions every binary-`Eq` input, then emits all
pairwise equalities inside each non-singleton class whose exact
(generated) form is not in the input. -/
def infer_equalities (equalities : List Expr) : List Expr :=
  let uf := equalities.foldl
    (fun uf e =>
      match e with
      | Expr.binary left BOp.eq right => uf.union left right
      | _ => uf)
    UnionFind.empty
  let groups := uf.get_equivalence_classes
  groups.foldl
    (fun acc (g : Expr × List Expr) =>
      if g.2.length < 2 then acc
      else acc ++ pairwiseNewEqualities equalities g.2)
    []

/-! ## Cost values

`f64` cost arithmetic restricted to the values the optimizer produces:
exact non-negative rationals plus `f64::INFINITY` (the build-time cost
of an un-finalized expression).  `NaN` never arises on these values. -/

/-- A cost: a finite rational or `f64::INFINITY`. -/
inductive Cost where
  | val (q : ℚ) : Cost
  | inf : Cost
deriving DecidableEq

/-- `f64` `<` on costs (`INFINITY` compares greater than every finite
value and not less than itself). -/
def Cost.blt : Cost → Cost → Bool
  | Cost.val a, Cost.val b => a < b
  | Cost.val _, Cost.inf => true
  | Cost.inf, _ => false

/-- `f64` `+` on costs. -/
def Cost.add : Cost → Cost → Cost
  | Cost.val a, Cost.val b => Cost.val (a + b)
  | _, _ => Cost.inf

/-- Non-strict order on costs (used to state minimality). -/
def Cost.ble (a b : Cost) : Bool := !(Cost.blt b a)

/-- Modelled from the spec: the crate's `constants` module
(`DEFAULT_ROW_COUNT`, `PROJECT_COST_PER_ROW`, `FILTER_COST_PER_ROW`,
`JOIN_COST_PER_ROW`) is declared in `src/cascades.rs` but its source
file is not part of the repository snapshot.  Per the spec these are
configured non-negative constants, so the embedding is parameterized
over them. -/
structure Consts where
  DEFAULT_ROW_COUNT : Nat
  PROJECT_COST_PER_ROW : ℚ
  FILTER_COST_PER_ROW : ℚ
  JOIN_COST_PER_ROW : ℚ

/-- The static `SELECTIVITY_MAP` of `src/cascades/mexpr.rs` (the `f64`
literals `0.001` and `0.1` modelled as exact rationals). -/
def SELECTIVITY_MAP : List ((String × String) × ℚ) :=
  [(("t1", "t2"), 1 / 1000),
   (("t1", "t3"), 1 / 1000),
   (("t1", "t4"), 1 / 1000),
   (("t1", "t5"), 1 / 1000),
   (("t2", "t3"), 1 / 1000),
   (("t2", "t4"), 1 / 1000),
   (("t2", "t5"), 1 / 1000),
   (("t3", "t4"), 1 / 1000),
   (("t3", "t5"), 1 / 1000),
   (("t4", "t5"), 1 / 10)]

/-- The table qualifier of a column expression, when present (the
left/right table resolution steps of `get_join_selectivity`). -/
def tableOfExpr : Expr → Option String
  | Expr.column (some rel) _ => some rel
  | _ => none

/-- `MExpr::get_join_selectivity`: over one representative equality per
union-find class of the `on`-list, multiply in the selectivity found in
`SELECTIVITY_MAP` under either orientation of the two resolved table
names; pairs that do not resolve to two named tables, and absent map
entries, contribute nothing (factor 1). -/
def get_join_selectivity (join_on : List (Expr × Expr)) : ℚ :=
  (get_unique_equalities join_on).foldl
    (fun total (p : Expr × Expr) =>
      match tableOfExpr p.1, tableOfExpr p.2 with
      | some left, some right =>
          match alookup SELECTIVITY_MAP (left, right) with
          | some s => total * s
          | none =>
              match alookup SELECTIVITY_MAP (right, left) with
              | some s => total * s
              | none => total
      | _, _ => total)
    1

/-! ## MExpr and fingerprints (`src/cascades/mexpr.rs`) -/

/-- `u64::MAX`, the build-time row count of an un-finalized `MExpr`. -/
def U64_MAX : Nat := 2 ^ 64 - 1

/-- Group handle: groups live in the optimizer state, and multi-
expressions refer to their operand groups by id (the embedding of the
shared `Rc<RefCell<Group>>` handles). -/
abbrev GroupId := Nat

/-- Exactly the operator-intrinsic data `MExpr::build_with_node` feeds
into the hasher after the operand group hashes, per variant: projection
schema and expression list; filter predicate; join type, residual
filter and join constraint (the `on`-clause, the schema and the null
equality are deliberately not hashed); the whole table-scan struct; and
nothing for every other variant. -/
inductive FPayload where
  | proj (schema : Schema) (expr : List Expr) : FPayload
  | filt (predicate : Expr) : FPayload
  | joinP (join_type : JoinType) (filter : Option Expr)
      (join_constraint : JoinConstraint) : FPayload
  | scan (ts : ScanNode) : FPayload
  | otherP : FPayload
deriving DecidableEq

/-- The payload hashed for a node (the `match` of `build_with_node`). -/
def fpayload : Node → FPayload
  | Node.projection expr schema _ => FPayload.proj schema expr
  | Node.filterN predicate _ => FPayload.filt predicate
  | Node.join _ _ _ filter join_type join_constraint _ _ =>
      FPayload.joinP join_type filter join_constraint
  | Node.tableScan ts => FPayload.scan ts
  | _ => FPayload.otherP

/-- The type of the fingerprint hash function: the `Xxh3` digest is a
function of exactly the byte stream fed to the hasher, i.e. of the
operand group hashes (in order) and the operator payload.  The whole
embedding is parameterized over it. -/
abbrev HashFn := List Nat × FPayload → Nat

/-- A multi-expression: one operator node, ordered operand group
references, with cached fingerprint, cost and row count. -/
structure MExpr where
  hash : Nat
  cost : Cost
  row_count : Nat
  op : Node
  operands : List GroupId

/-- State of one `Group` (`src/cascades/group.rs`). -/
structure GroupData where
  explored : Bool
  min_cost : Cost
  start_expression : Option MExpr
  cheapest_logical_expression : Option MExpr
  unexplored : List MExpr
  equivalent : List MExpr
  source_node : Option String

/-- The optimizer state: the memo (fingerprint → group handle), the
group store, and the next unused group handle.  Handles `≥ next` are
unused (`defaultGroup`). -/
structure State where
  memo : List (Nat × GroupId)
  groups : GroupId → GroupData
  next : GroupId

/-- `Group::get_group_hash`: the start expression's fingerprint, or 0
when the group has no start expression. -/
def GroupData.get_group_hash (g : GroupData) : Nat :=
  (g.start_expression.map MExpr.hash).getD 0

/-- `Group::get_group_row_count`.  Note: in the source the unexplored
branch computes `start_expression.map(row_count).unwrap_or(0)` as a
value-discarding statement (there is no `return`), so the function
always answers from `cheapest_logical_expression`, defaulting to 0. -/
def GroupData.get_group_row_count (g : GroupData) : Nat :=
  (g.cheapest_logical_expression.map MExpr.row_count).getD 0

/-- `Group::get_group_cost`: the cached `min_cost` (0.0 when unknown). -/
def GroupData.get_group_cost (g : GroupData) : Cost := g.min_cost

/-- `Group::set_explored(true)`: marks the group explored, scans
`equivalent` for a strictly cheaper expression than the current
cheapest (initially the stored one), and caches its cost as `min_cost`
(0.0 when there is no cheapest expression). -/
def GroupData.set_explored (g : GroupData) : GroupData :=
  let cheapest := g.equivalent.foldl
    (fun acc m =>
      match acc with
      | some c => if Cost.blt m.cost c.cost then some m else some c
      | none => some m)
    g.cheapest_logical_expression
  { g with
    explored := true
    cheapest_logical_expression := cheapest
    min_cost := (cheapest.map MExpr.cost).getD (Cost.val 0) }

/-- `Group::new`: a fresh group seeded with a start expression. -/
def GroupData.new (start : MExpr) : GroupData :=
  { explored := false
    min_cost := Cost.val 0
    start_expression := some start
    cheapest_logical_expression := none
    unexplored := []
    equivalent := []
    source_node := none }

/-- `Group::from_mexpr`: a fresh group whose unexplored queue holds the
seed expression. -/
def GroupData.from_mexpr (m : MExpr) : GroupData :=
  { GroupData.new m with unexplored := [m] }

/-- The contents of an unused group slot (no Rust `Group` exists there;
any value with `explored = false` and empty lists is adequate, since
the optimizer never reads such a slot before creating it). -/
def defaultGroup : GroupData :=
  { explored := false
    min_cost := Cost.val 0
    start_expression := none
    cheapest_logical_expression := none
    unexplored := []
    equivalent := []
    source_node := none }

/-- Read a group from the state. -/
def State.getG (s : State) (g : GroupId) : GroupData := s.groups g

/-- Replace a group in the state. -/
def State.setG (s : State) (g : GroupId) (d : GroupData) : State :=
  { s with groups := fun g' => if g' = g then d else s.groups g' }

/-- `MExpr::build_with_node`: hashes the operand group hashes (in
order) and the operator payload; cost starts at `+∞` and row count at
`u64::MAX`. -/
def build_with_node (H : HashFn) (s : State) (node : Node)
    (operands : List GroupId) : MExpr :=
  { hash := H (operands.map (fun g => (s.getG g).get_group_hash), fpayload node)
    cost := Cost.inf
    row_count := U64_MAX
    op := node
    operands := operands }

/-- `MExpr::update_cost_and_rowcount`: recomputes this expression's row
count and cost from its operand groups' cached row counts and costs,
per the operator-specific rules; all other variants keep the defaults
(`DEFAULT_ROW_COUNT`, cost 0.0). -/
def update_cost_and_rowcount (K : Consts) (s : State) (m : MExpr) : MExpr :=
  let operand_row_counts := m.operands.map (fun g => (s.getG g).get_group_row_count)
  let operand_costs := (m.operands.map (fun g => (s.getG g).get_group_cost)).foldl
    Cost.add (Cost.val 0)
  match m.op with
  | Node.projection _ _ _ =>
      let row_count := operand_row_counts.headD K.DEFAULT_ROW_COUNT
      { m with row_count := row_count
               cost := Cost.add (Cost.val (K.PROJECT_COST_PER_ROW * (row_count : ℚ)))
                 operand_costs }
  | Node.filterN _ _ =>
      let row_count :=
        ((1 / 10 : ℚ) * (operand_row_counts.headD K.DEFAULT_ROW_COUNT : ℚ)).floor.toNat
      { m with row_count := row_count
               cost := Cost.add (Cost.val (K.FILTER_COST_PER_ROW * (row_count : ℚ)))
                 operand_costs }
  | Node.join _ _ join_on _ _ _ _ _ =>
      let selectivity := get_join_selectivity join_on
      let prod : Nat := operand_row_counts.foldl (· * ·) 1
      let row_count :=
        if selectivity ≠ 1 then (selectivity * (prod : ℚ)).floor.toNat
        else prod
      { m with row_count := row_count
               cost := Cost.add (Cost.val (K.JOIN_COST_PER_ROW * (row_count : ℚ)))
                 operand_costs }
  | Node.tableScan ts =>
      let row_count := ts.fetch.getD K.DEFAULT_ROW_COUNT
      { m with row_count := row_count, cost := Cost.val (row_count : ℚ) }
  | _ =>
      { m with row_count := K.DEFAULT_ROW_COUNT, cost := Cost.val 0 }

/-! ## RuleMatcher (`src/cascades/rulematcher.rs`)

The RuleMatcher calls two DataFusion helpers the crate does not define:
`find_valid_equijoin_key_pair` (the equi-join key oracle, which can
fail) and `build_join_schema` (which the crate unwraps).  Both are
parameters below, so every theorem quantifies over their behaviour. -/

/-- The equi-join key oracle
(`datafusion_expr::utils::find_valid_equijoin_key_pair`): given the two
sides of an equality and the left/right schemas, an error, or `none`
(not an equi-join pair for these schemas), or the resolved pair. -/
abbrev EquijoinOracle := Expr → Expr → Schema → Schema → Except Unit (Option (Expr × Expr))

/-- `datafusion_expr::logical_plan::builder::build_join_schema` for an
inner join (a `Result` in DataFusion; the crate unwraps it). -/
abbrev JoinSchemaOracle := Schema → Schema → Except Unit Schema

/-- `datafusion_expr::utils::split_conjunction_owned` on the embedded
expressions: flattens nested `AND`s into the list of conjuncts. -/
def split_conjunction_owned : Expr → List Expr
  | Expr.binary left BOp.andOp right =>
      split_conjunction_owned left ++ split_conjunction_owned right
  | e => [e]

/-- `Expr::and`. -/
def Expr.andE (a b : Expr) : Expr := Expr.binary a BOp.andOp b

/-- `datafusion_expr::utils::conjunction`: the left-associated `AND` of
a list of conjuncts (none for the empty list); also
`accum_filters.into_iter().reduce(Expr::and)`. -/
def conjunction : List Expr → Option Expr
  | [] => none
  | e :: rest => some (rest.foldl Expr.andE e)

/-- One step of the accumulation loop of
`split_eq_and_noneq_join_predicate`: a binary `Eq` is passed to the
oracle (an oracle error aborts via `?`); a resolved pair is added to
the join-key set unless either orientation is present; everything else
joins the residual filter list. -/
def splitAccumStep (fvekp : EquijoinOracle) (left_schema right_schema : Schema)
    (acc : List (Expr × Expr) × List Expr) (e : Expr) :
    Except Unit (List (Expr × Expr) × List Expr) :=
  match e with
  | Expr.binary left BOp.eq right =>
      match fvekp left right left_schema right_schema with
      | Except.error u => Except.error u
      | Except.ok (some (left_expr, right_expr)) =>
          if acc.1.contains (right_expr, left_expr)
              || acc.1.contains (left_expr, right_expr) then
            Except.ok acc
          else
            Except.ok (acc.1 ++ [(left_expr, right_expr)], acc.2)
      | Except.ok none => Except.ok (acc.1, acc.2 ++ [e])
  | _ => Except.ok (acc.1, acc.2 ++ [e])

/-- `RuleMatcher::split_eq_and_noneq_join_predicate`: splits the filter
into conjuncts, augments them with inferred transitive equalities, and
folds the accumulation loop over them; returns the accumulated
equi-join pairs and the re-ANDed residual filter. -/
def split_eq_and_noneq_join_predicate (fvekp : EquijoinOracle) (filter : Expr)
    (left_schema right_schema : Schema) :
    Except Unit (List (Expr × Expr) × Option Expr) :=
  let exprs := split_conjunction_owned filter
  let inferred := infer_equalities exprs
  match (exprs ++ inferred).foldlM (splitAccumStep fvekp left_schema right_schema)
      ([], []) with
  | Except.error u => Except.error u
  | Except.ok (accum_join_keys, accum_filters) =>
      Except.ok (accum_join_keys, conjunction accum_filters)

/-- `RuleMatcher::apply_join_commutativity`: on a join expression,
emits the single expression with the same operator payload and the two
operand groups swapped; on anything else, emits nothing.  Indexing the
operand list below length 2 is a Rust panic. -/
def apply_join_commutativity (H : HashFn) (s : State) (m : MExpr) :
    Except String (List MExpr) :=
  match m.op with
  | Node.join .. =>
      match m.operands with
      | left :: right :: _ =>
          Except.ok [build_with_node H s m.op [right, left]]
      | _ => Except.error "index out of bounds: operands"
  | _ => Except.ok []

/-- `RuleMatcher::gen_or_get_from_memo`: the group registered under the
expression's fingerprint, or a fresh group seeded with it. -/
def gen_or_get_from_memo (m : MExpr) (s : State) : GroupId × State :=
  match alookup s.memo m.hash with
  | some g => (g, s)
  | none =>
      (s.next,
       { memo := (m.hash, s.next) :: s.memo
         groups := fun g' => if g' = s.next then GroupData.from_mexpr m
           else s.groups g'
         next := s.next + 1 })

/-- The per-left-variant body of the loop in
`RuleMatcher::apply_join_associativity`.  `continue` arms leave the
accumulator unchanged; the two `unwrap()`s on the predicate splitter
and the `unwrap()`s on `build_join_schema` are panics
(`Except.error`). -/
def assocStep (H : HashFn) (fvekp : EquijoinOracle) (bjs : JoinSchemaOracle)
    (currJoin : Node) (rightG : GroupId)
    (acc : List MExpr × State) (left_mexpr : MExpr) :
    Except String (List MExpr × State) :=
  match left_mexpr.op, currJoin with
  | Node.join _ _ left_on left_filter _ left_jc _ left_ne,
    Node.join _ _ curr_on curr_filter _ curr_jc _ curr_ne =>
      let join_clause_plus_filters : List Expr :=
        (left_on.map (fun p => Expr.binary p.1 BOp.eq p.2))
        ++ left_filter.toList
        ++ (curr_on.map (fun p => Expr.binary p.1 BOp.eq p.2))
        ++ curr_filter.toList
      let combined_filter := (conjunction join_clause_plus_filters).getD
        (Expr.boolLit true)
      match left_mexpr.operands with
      | left_l :: left_r :: _ =>
          let s := acc.2
          match (s.getG left_r).start_expression with
          | none => Except.ok acc
          | some lrStart =>
            match lrStart.op.getSchema with
            | none => Except.ok acc
            | some left_r_schema =>
              match (s.getG rightG).start_expression with
              | none => Except.ok acc
              | some rStart =>
                match rStart.op.getSchema with
                | none => Except.ok acc
                | some right_schema =>
                  match split_eq_and_noneq_join_predicate fvekp combined_filter
                      left_r_schema right_schema with
                  | Except.error _ =>
                      Except.error "split_eq_and_noneq_join_predicate unwrap"
                  | Except.ok (equi_join_clause, _other) =>
                    match bjs left_r_schema right_schema with
                    | Except.error _ => Except.error "build_join_schema unwrap"
                    | Except.ok new_right_join_schema =>
                      let new_right_join_node := Node.join
                        Node.defaultNode Node.defaultNode equi_join_clause none
                        JoinType.inner curr_jc new_right_join_schema curr_ne
                      let (new_right, s1) := gen_or_get_from_memo
                        (build_with_node H s new_right_join_node [left_r, rightG]) s
                      match (s1.getG left_l).start_expression with
                      | none => Except.ok (acc.1, s1)
                      | some llStart =>
                        match llStart.op.getSchema with
                        | none => Except.ok (acc.1, s1)
                        | some left_l_schema =>
                          match split_eq_and_noneq_join_predicate fvekp
                              combined_filter left_l_schema new_right_join_schema with
                          | Except.error _ =>
                              Except.error "split_eq_and_noneq_join_predicate unwrap"
                          | Except.ok (equi_join_clause2, _other2) =>
                            match bjs left_l_schema new_right_join_schema with
                            | Except.error _ =>
                                Except.error "build_join_schema unwrap"
                            | Except.ok top_schema =>
                              let new_top_join_node := Node.join
                                Node.defaultNode Node.defaultNode
                                equi_join_clause2 none JoinType.inner left_jc
                                top_schema left_ne
                              Except.ok
                                (acc.1 ++ [build_with_node H s1 new_top_join_node
                                  [left_l, new_right]], s1)
      | _ => Except.error "index out of bounds: left operands"
  | _, _ => Except.ok acc

/-- `RuleMatcher::apply_join_associativity`
(`(A ⋈ B) ⋈ C ⇒ A ⋈ (B ⋈ C)`): on a join expression, scans the left
group's explored list for join variants and runs the per-variant body
over each of them (threading the memo state); on anything else, emits
nothing. -/
def apply_join_associativity (H : HashFn) (fvekp : EquijoinOracle)
    (bjs : JoinSchemaOracle) (m : MExpr) (s : State) :
    Except String (List MExpr × State) :=
  match m.op with
  | Node.join .. =>
      match m.operands with
      | _left :: right :: _ =>
          let left := _left
          let left_inner_joins :=
            ((s.getG left).equivalent).filter (fun x => x.op.isJoin)
          if left_inner_joins.isEmpty then Except.ok ([], s)
          else
            left_inner_joins.foldlM (assocStep H fvekp bjs m.op right) ([], s)
      | _ => Except.error "index out of bounds: operands"
  | _ => Except.ok ([], s)

/-- `Group::push_back` on the unexplored queue of group `g`. -/
def pushUnexplored (s : State) (g : GroupId) (m : MExpr) : State :=
  s.setG g { s.getG g with unexplored := (s.getG g).unexplored ++ [m] }

/-- `RuleMatcher::add_new_mexprs`: each transformed expression whose
fingerprint is absent from the memo is bound in the memo to the origin
group and appended to that group's unexplored queue; the rest are
dropped. -/
def add_new_mexprs (g : GroupId) (transformed : List MExpr) (s : State) : State :=
  transformed.foldl
    (fun s new_expr =>
      if acontains s.memo new_expr.hash then s
      else pushUnexplored { s with memo := (new_expr.hash, g) :: s.memo } g new_expr)
    s

/-- `RuleMatcher::apply_transformation_rules`: commutativity then
associativity, registering each rule's output into the memo and the
origin group's queue. -/
def apply_transformation_rules (H : HashFn) (fvekp : EquijoinOracle)
    (bjs : JoinSchemaOracle) (g : GroupId) (m : MExpr) (s : State) :
    Except String State :=
  match apply_join_commutativity H s m with
  | Except.error msg => Except.error msg
  | Except.ok transformed =>
      let s1 := add_new_mexprs g transformed s
      match apply_join_associativity H fvekp bjs m s1 with
      | Except.error msg => Except.error msg
      | Except.ok (transformed2, s2) =>
          Except.ok (add_new_mexprs g transformed2 s2)

/-- Pop the front of a group's unexplored queue. -/
def popUnexplored (s : State) (g : GroupId) : Option (MExpr × State) :=
  match (s.getG g).unexplored with
  | [] => none
  | m :: rest => some (m, s.setG g { s.getG g with unexplored := rest })

/-- Append an expression to a group's explored (`equivalent`) list. -/
def pushEquivalent (s : State) (g : GroupId) (m : MExpr) : State :=
  s.setG g { s.getG g with equivalent := (s.getG g).equivalent ++ [m] }

/-- The possible outcomes of running the recursive exploration: a
normal return, a Rust panic, or exhaustion of the fuel that makes the
embedding structurally total (the source recursion carries no fuel; a
run that returns corresponds to a `.ok`). -/
inductive XR where
  | ok (s : State) : XR
  | panicked (msg : String) : XR
  | nofuel : XR

/-- The pending work of the recursive `explore` procedure: explore one
group, drain one group's queue, or explore a list of operand groups. -/
inductive Task where
  | exploreT (g : GroupId) : Task
  | loopT (g : GroupId) : Task
  | childrenT (gs : List GroupId) : Task

/-- `RuleMatcher::explore`, as a fuel-indexed interpreter over tasks:

* `exploreT g` — return at once when the group is explored, else drain
  its queue (`loopT g`);
* `loopT g` — pop the next unexplored expression; when the queue is
  empty, `set_explored`; otherwise explore all operand groups, apply
  the transformation rules, finalize the expression's cost/row count,
  push it onto `equivalent`, and continue the loop;
* `childrenT gs` — explore each operand group in order. -/
def run (H : HashFn) (fvekp : EquijoinOracle) (bjs : JoinSchemaOracle)
    (K : Consts) : Nat → Task → State → XR
  | 0, _, _ => XR.nofuel
  | fuel + 1, Task.exploreT g, s =>
      if (s.getG g).explored then XR.ok s
      else run H fvekp bjs K fuel (Task.loopT g) s
  | fuel + 1, Task.loopT g, s =>
      match popUnexplored s g with
      | none => XR.ok (s.setG g (s.getG g).set_explored)
      | some (m, s1) =>
          match run H fvekp bjs K fuel (Task.childrenT m.operands) s1 with
          | XR.ok s2 =>
              match apply_transformation_rules H fvekp bjs g m s2 with
              | Except.error msg => XR.panicked msg
              | Except.ok s3 =>
                  run H fvekp bjs K fuel (Task.loopT g)
                    (pushEquivalent s3 g (update_cost_and_rowcount K s3 m))
          | r => r
  | _ + 1, Task.childrenT [], s => XR.ok s
  | fuel + 1, Task.childrenT (c :: cs), s =>
      match run H fvekp bjs K fuel (Task.exploreT c) s with
      | XR.ok s' => run H fvekp bjs K fuel (Task.childrenT cs) s'
      | r => r

/-- `Cascades::optimize`: explore the root group. -/
def optimize (H : HashFn) (fvekp : EquijoinOracle) (bjs : JoinSchemaOracle)
    (K : Consts) (fuel : Nat) (root : GroupId) (s : State) : XR :=
  run H fvekp bjs K fuel (Task.exploreT root) s

/-! ## Definitions used to state the claims -/

/-- The four operator variants with their own cost/row-count rules in
`update_cost_and_rowcount`; every other variant falls to the defaults. -/
def Node.isCoreCosted : Node → Bool
  | Node.projection .. => true
  | Node.filterN .. => true
  | Node.join .. => true
  | Node.tableScan .. => true
  | _ => false

/-- The selectivity of one equality as the spec describes it: the entry
of the configured table under the unordered pair of participating table
names, 1 when absent or unresolvable. -/
def selectivityOfPair (p : Expr × Expr) : ℚ :=
  match tableOfExpr p.1, tableOfExpr p.2 with
  | some left, some right =>
      match alookup SELECTIVITY_MAP (left, right) with
      | some s => s
      | none =>
          match alookup SELECTIVITY_MAP (right, left) with
          | some s => s
          | none => 1
  | _, _ => 1

/-- Modelled from the spec (claim C3's reading): `ρ` as the product
over the join's `on`-list entries of the per-equality selectivity.
This is the claim-side definition, to be compared with the source's
`get_join_selectivity`. -/
def claimed_join_selectivity (join_on : List (Expr × Expr)) : ℚ :=
  (join_on.map selectivityOfPair).prod

/-- The row count claim C3 predicts for an inner join:
`⌊ρ · ∏ R_i⌋` with the claimed `ρ`, and exactly `∏ R_i` when `ρ = 1`. -/
def claimed_join_row_count (join_on : List (Expr × Expr)) (rs : List Nat) : Nat :=
  let ρ := claimed_join_selectivity join_on
  if ρ = 1 then rs.prod else (ρ * (rs.prod : ℚ)).floor.toNat

/-- The amended `ρ`: the product of per-equality selectivities over one
representative equality per union-find equivalence class of the
`on`-list (`get_unique_equalities`), rather than over the raw list. -/
def amended_join_selectivity (join_on : List (Expr × Expr)) : ℚ :=
  ((get_unique_equalities join_on).map selectivityOfPair).prod

/-! ## Exploration invariants (claim C1) -/

/-- Every operand group of `m` is explored in `s`. -/
def ChildrenExplored (s : State) (m : MExpr) : Prop :=
  ∀ c ∈ m.operands, (s.getG c).explored = true

/-- Every expression in any group's explored list has explored operand
groups. -/
def GInvChildren (s : State) : Prop :=
  ∀ g, ∀ m ∈ (s.getG g).equivalent, ChildrenExplored s m

/-- Every group's cached cheapest expression, when present, is a member
of its explored list. -/
def GInvCheapest (s : State) : Prop :=
  ∀ g, (s.getG g).cheapest_logical_expression = none ∨
    ∃ m ∈ (s.getG g).equivalent,
      (s.getG g).cheapest_logical_expression = some m

/-- All operand group handles of `m` are allocated in `s`. -/
def ValidM (s : State) (m : MExpr) : Prop :=
  ∀ c ∈ m.operands, c < s.next

/-- Handle validity: every expression stored in a queue or an explored
list, and every memo binding, refers to allocated groups only. -/
def VInv (s : State) : Prop :=
  (∀ g, (∀ m ∈ (s.getG g).unexplored, ValidM s m) ∧
    (∀ m ∈ (s.getG g).equivalent, ValidM s m)) ∧
  (∀ h gid, alookup s.memo h = some gid → gid < s.next)

/-- `min_cost` is the minimum cost over the explored list (witnessed by
a member), or the `0.0` placeholder when the list is empty. -/
def MinCostOk (g : GroupData) : Prop :=
  (g.equivalent = [] ∧ g.min_cost = Cost.val 0) ∨
  (∃ m ∈ g.equivalent, g.min_cost = m.cost ∧
    ∀ m' ∈ g.equivalent, Cost.ble m.cost m'.cost = true)

/-- Every explored group outside the exception set `X` (the groups with
an active `explore` frame) has a drained queue and a finalized
`min_cost`. -/
def XInv (s : State) (X : GroupId → Prop) : Prop :=
  ∀ g, ¬ X g → (s.getG g).explored = true →
    (s.getG g).unexplored = [] ∧ MinCostOk (s.getG g)

/-- The full exploration invariant. -/
def Inv (s : State) (X : GroupId → Prop) : Prop :=
  GInvChildren s ∧ GInvCheapest s ∧ VInv s ∧ XInv s X

/-- Progress relation between states: allocation grows and explored
groups stay explored. -/
def Mono (s s' : State) : Prop :=
  s.next ≤ s'.next ∧
  ∀ g, g < s.next → (s.getG g).explored = true → (s'.getG g).explored = true

/-- The groups reachable from `root` through operand references of
queued or explored expressions. -/
inductive Reachable (s : State) (root : GroupId) : GroupId → Prop where
  | refl : Reachable s root root
  | step {g m c} : Reachable s root g →
      m ∈ (s.getG g).equivalent ++ (s.getG g).unexplored →
      c ∈ m.operands → Reachable s root c

/-! ## Concrete fixtures for witnesses and counterexamples -/

/-- A concrete hash function (all theorems hold for every `H`). -/
def H0 : HashFn := fun _ => 0

/-- A concrete hash function separating payloads and operand lists
enough for the fixtures that need distinct fingerprints. -/
def H1 : HashFn := fun x =>
  (x.1.foldl (fun a n => 2 * a + n + 1) 0) +
    (match x.2 with
     | FPayload.proj _ _ => 1
     | FPayload.filt _ => 2
     | FPayload.joinP _ _ _ => 3
     | FPayload.scan _ => 4
     | FPayload.otherP => 5)

/-- Concrete constants. -/
def K0 : Consts := ⟨4, 1, 1, 1⟩

/-- An equi-join oracle that always resolves nothing. -/
def fvekpNone : EquijoinOracle := fun _ _ _ _ => Except.ok none

/-- An equi-join oracle that always fails. -/
def fvekpErr : EquijoinOracle := fun _ _ _ _ => Except.error ()

/-- A join-schema oracle that always succeeds. -/
def bjsOk : JoinSchemaOracle := fun _ _ => Except.ok 0

/-- An empty optimizer state. -/
def emptyState : State := ⟨[], fun _ => defaultGroup, 0⟩

/-- A table-scan expression as `build_with_node` creates it (cost `+∞`,
row count `u64::MAX`). -/
def scanMExpr : MExpr :=
  build_with_node H0 emptyState (Node.tableScan ⟨"t1", 10, none⟩) []

/-- A group freshly seeded with `scanMExpr` (`Group::new`). -/
def scanGroup : GroupData := GroupData.new scanMExpr

/-- Unqualified column `a` (as in the crate's inference tests). -/
def colA : Expr := Expr.column none "a"

/-- Unqualified column `b`. -/
def colB : Expr := Expr.column none "b"

/-- Unqualified column `c`. -/
def colC : Expr := Expr.column none "c"

/-- Unqualified column `d`. -/
def colD : Expr := Expr.column none "d"

/-- A binary equality expression. -/
def eqE (x y : Expr) : Expr := Expr.binary x BOp.eq y

/-- Column `t1.a1`. -/
def t1a1 : Expr := Expr.column (some "t1") "a1"

/-- Column `t2.a2`. -/
def t2a2 : Expr := Expr.column (some "t2") "a2"

/-- Column `t3.a3`. -/
def t3a3 : Expr := Expr.column (some "t3") "a3"

/-- A transitively linked `on`-list: `t1.a1 = t2.a2, t2.a2 = t3.a3`. -/
def c3onList : List (Expr × Expr) := [(t1a1, t2a2), (t2a2, t3a3)]

/-- An explored group whose cheapest expression carries row count `n`. -/
def rowGroup (n : Nat) : GroupData :=
  { defaultGroup with
    explored := true
    cheapest_logical_expression := some
      { hash := 0, cost := Cost.val 0, row_count := n
        op := Node.tableScan ⟨"x", 0, none⟩, operands := [] } }

/-- Two explored operand groups with 1000 rows each. -/
def c3state : State :=
  ⟨[], fun g => if g = 0 then rowGroup 1000
    else if g = 1 then rowGroup 1000 else defaultGroup, 2⟩

/-- An inner join over `c3onList`. -/
def c3join : Node :=
  Node.join Node.defaultNode Node.defaultNode c3onList none JoinType.inner
    JoinConstraint.onC 0 NullEquality.nullEqualsNothing

/-- The inner-join expression over the two 1000-row groups. -/
def c3m : MExpr :=
  { hash := 0, cost := Cost.inf, row_count := U64_MAX, op := c3join
    operands := [0, 1] }

/-- The schema the associativity rule resolves for a group: its start
expression's schema (absent when there is no start expression or the
walk finds no schema-carrying operator). -/
def groupStartSchema (s : State) (g : GroupId) : Option Schema :=
  (s.getG g).start_expression.bind (fun st => st.op.getSchema)

/-- An explored leaf group over a one-row scan of `name` with schema
`sch`. -/
def scanLeafGroup (name : String) (sch : Schema) : GroupData :=
  { defaultGroup with
    explored := true
    start_expression := some
      { hash := 0, cost := Cost.val 0, row_count := 1
        op := Node.tableScan ⟨name, sch, none⟩, operands := [] } }

/-- An explored group whose start expression has no schema (its
operator is outside the schema walk). -/
def noSchemaGroup : GroupData :=
  { defaultGroup with
    explored := true
    start_expression := some
      { hash := 0, cost := Cost.val 0, row_count := 1
        op := Node.opaqueP 0, operands := [] } }

/-- A left-join variant `(A ⋈ B)` with `on = [a = b]` over groups 2
(`A`) and 3 (`B`). -/
def c2ljm : MExpr :=
  { hash := 1, cost := Cost.val 0, row_count := 1
    op := Node.join Node.defaultNode Node.defaultNode [(colA, colB)] none
      JoinType.inner JoinConstraint.onC 5 NullEquality.nullEqualsNothing
    operands := [2, 3] }

/-- The current join `(A ⋈ B) ⋈ C` over the left group 0 and the right
group 1. -/
def c2m : MExpr :=
  { hash := 2, cost := Cost.inf, row_count := U64_MAX
    op := Node.join Node.defaultNode Node.defaultNode [(colC, colD)] none
      JoinType.inner JoinConstraint.onC 6 NullEquality.nullEqualsNothing
    operands := [0, 1] }

/-- The state for the C2 scenario: group 0 is the explored left group
holding the join variant `c2ljm`, groups 1–3 are explored scan leaves,
and group 4 is the unexplored current group whose queue holds `c2m`. -/
def c2state : State :=
  ⟨[(2, 4)],
   fun g =>
     if g = 0 then { defaultGroup with explored := true, equivalent := [c2ljm] }
     else if g = 1 then scanLeafGroup "t2" 2
     else if g = 2 then scanLeafGroup "t1" 1
     else if g = 3 then scanLeafGroup "t3" 3
     else if g = 4 then
       { defaultGroup with unexplored := [c2m], start_expression := some c2m }
     else defaultGroup,
   5⟩

/-- The C2 state with the inner right group (3, the variant's `B`)
replaced by a group whose start expression has no schema. -/
def c2stateNoB : State :=
  ⟨[(2, 4)],
   fun g =>
     if g = 0 then { defaultGroup with explored := true, equivalent := [c2ljm] }
     else if g = 1 then scanLeafGroup "t2" 2
     else if g = 2 then scanLeafGroup "t1" 1
     else if g = 3 then noSchemaGroup
     else if g = 4 then
       { defaultGroup with unexplored := [c2m], start_expression := some c2m }
     else defaultGroup,
   5⟩

/-- The C2 state with the right group (1) replaced by a group whose
start expression has no schema. -/
def c2stateNoRight : State :=
  ⟨[(2, 4)],
   fun g =>
     if g = 0 then { defaultGroup with explored := true, equivalent := [c2ljm] }
     else if g = 1 then noSchemaGroup
     else if g = 2 then scanLeafGroup "t1" 1
     else if g = 3 then scanLeafGroup "t3" 3
     else if g = 4 then
       { defaultGroup with unexplored := [c2m], start_expression := some c2m }
     else defaultGroup,
   5⟩

/-- A join expression over groups 0 and 1 of `c2state`, built by
`build_with_node` (so its cached fingerprint is the computed one). -/
def c8m : MExpr :=
  build_with_node H0 c2state
    (Node.join Node.defaultNode Node.defaultNode [(colA, colB)] none
      JoinType.inner JoinConstraint.onC 6 NullEquality.nullEqualsNothing)
    [0, 1]

/-- A one-group optimizer state: the memo binds fingerprint 0 to the
root group 0, seeded with a table scan (as `gen_group_logical_plan`
would leave it). -/
def c1m : MExpr :=
  { hash := 0, cost := Cost.inf, row_count := U64_MAX
    op := Node.tableScan ⟨"t1", 1, none⟩, operands := [] }

/-- The state holding only the seeded root group 0. -/
def c1S0 : State :=
  ⟨[(0, 0)], fun g => if g = 0 then GroupData.from_mexpr c1m
    else defaultGroup, 1⟩

/-- The result of optimizing `c1S0` from group 0. -/
def c1res : XR := optimize H0 fvekpNone bjsOk K0 5 0 c1S0

/-- The state after optimizing `c1S0` (the run returns normally). -/
def c1S1 : State :=
  match c1res with
  | XR.ok s => s
  | _ => c1S0

/-- One step of the `set_explored` scan (keep the cheaper of the
accumulator and the scanned expression, strict inequality to switch). -/
def cheapStep (acc : Option MExpr) (m : MExpr) : Option MExpr :=
  match acc with
  | some c => if Cost.blt m.cost c.cost then some m else some c
  | none => some m

/-- The whole `set_explored` scan over `equivalent` (with the stored
cheapest as the initial accumulator). -/
def cheapestFold (l : List MExpr) (init : Option MExpr) : Option MExpr :=
  l.foldl cheapStep init

/-- A freshly created group slot: unexplored, no cheapest expression,
empty explored list, and a queue of valid expressions. -/
def FreshShape (s' : State) (d : GroupData) : Prop :=
  d.explored = false ∧ d.cheapest_logical_expression = none ∧
  d.equivalent = [] ∧ ∀ m ∈ d.unexplored, ValidM s' m

/-- Footprint of a rule application relative to the origin group `g`:
allocation grows; `g` at most gains valid queue entries; every other
already-allocated group is untouched; beyond the old allocation bound a
group is untouched or freshly created; and new memo bindings point to
allocated groups. -/
def FP (g : GroupId) (s s' : State) : Prop :=
  s.next ≤ s'.next ∧
  (∃ δ, (∀ m ∈ δ, ValidM s' m) ∧
    s'.getG g = { s.getG g with
      unexplored := (s.getG g).unexplored ++ δ }) ∧
  (∀ g', g' ≠ g → s'.getG g' = s.getG g' ∨ FreshShape s' (s'.getG g')) ∧
  (∀ g', g' < s.next → g' ≠ g → s'.getG g' = s.getG g') ∧
  (∀ h gid, alookup s'.memo h = some gid →
    gid < s'.next ∨ alookup s.memo h = some gid)

/-! ## Theorems -/

/-- **C10.** For every group whose `start_expression` is absent (such
as source-node leaf groups), `get_group_hash` returns 0; hence any two
such groups share the same group hash, and a parent expression built
over one or the other receives the same fingerprint. -/
theorem c10_missing_start_group_hash
    (g1 g2 : GroupData) (h1 : g1.start_expression = none)
    (h2 : g2.start_expression = none) :
    g1.get_group_hash = 0 ∧ g1.get_group_hash = g2.get_group_hash ∧
    ∀ (H : HashFn) (s : State) (n : Node) (gid1 gid2 : GroupId),
      s.getG gid1 = g1 → s.getG gid2 = g2 →
      (build_with_node H s n [gid1]).hash = (build_with_node H s n [gid2]).hash := by
  refine ⟨?_, ?_, ?_⟩
  · simp [GroupData.get_group_hash, h1]
  · simp [GroupData.get_group_hash, h1, h2]
  · intro H s n gid1 gid2 e1 e2
    simp [build_with_node, e1, e2, GroupData.get_group_hash, h1, h2]

/-- Witness for C10 at two concrete groups with no start expression. -/
theorem c10_missing_start_group_hash_witness :
    defaultGroup.get_group_hash = 0 ∧
    defaultGroup.get_group_hash = { defaultGroup with
      source_node := some "A" }.get_group_hash ∧
    ∀ (H : HashFn) (s : State) (n : Node) (gid1 gid2 : GroupId),
      s.getG gid1 = defaultGroup →
      s.getG gid2 = { defaultGroup with source_node := some "A" } →
      (build_with_node H s n [gid1]).hash = (build_with_node H s n [gid2]).hash :=
  c10_missing_start_group_hash defaultGroup
    { defaultGroup with source_node := some "A" } rfl rfl

/-- **C5.** Two join expressions built over the same ordered operand
groups with the same join type, residual filter and join constraint
receive equal fingerprints, whatever their equi-join `on`-lists (the
`on`-clause, like the left/right placeholder children, the cached
schema and the null-equality flag, is not fed to the hasher). -/
theorem c5_fingerprint_ignores_on_clause (H : HashFn) (s : State)
    (operands : List GroupId) (l1 r1 l2 r2 : Node)
    (on1 on2 : List (Expr × Expr)) (f : Option Expr) (jt : JoinType)
    (jc : JoinConstraint) (sch1 sch2 : Schema) (ne1 ne2 : NullEquality) :
    (build_with_node H s (Node.join l1 r1 on1 f jt jc sch1 ne1) operands).hash =
    (build_with_node H s (Node.join l2 r2 on2 f jt jc sch2 ne2) operands).hash := by
  simp [build_with_node, fpayload]

/-- **C9.** An expression whose operator is not a projection, filter,
join or table scan gets `DEFAULT_ROW_COUNT` and cost 0.0 from
`update_cost_and_rowcount`, whatever its operand groups hold. -/
theorem c9_other_variants_default_cost (K : Consts) (s : State) (m : MExpr)
    (h : m.op.isCoreCosted = false) :
    (update_cost_and_rowcount K s m).row_count = K.DEFAULT_ROW_COUNT ∧
    (update_cost_and_rowcount K s m).cost = Cost.val 0 := by
  cases hop : m.op <;>
    simp [Node.isCoreCosted, hop] at h ⊢ <;>
    simp [update_cost_and_rowcount, hop]

/-- Witness for C9: an `Aggregate` node (one of the variants outside
the costed four) over a non-trivial operand group. -/
theorem c9_other_variants_default_cost_witness :
    (update_cost_and_rowcount K0 emptyState
      { scanMExpr with op := Node.aggregate 7 (Node.tableScan ⟨"t1", 10, none⟩) }).row_count
      = K0.DEFAULT_ROW_COUNT ∧
    (update_cost_and_rowcount K0 emptyState
      { scanMExpr with op := Node.aggregate 7 (Node.tableScan ⟨"t1", 10, none⟩) }).cost
      = Cost.val 0 :=
  c9_other_variants_default_cost K0 emptyState
    { scanMExpr with op := Node.aggregate 7 (Node.tableScan ⟨"t1", 10, none⟩) } rfl

/-- **C4** (the claim fails on the code; the source discards the
start-expression row count it computes).  At the concrete failing
input — a freshly seeded, unexplored group — `get_group_row_count`
returns 0, not the start expression's row count `u64::MAX`: the
unexplored branch of the source computes
`start_expression.map(row_count).unwrap_or(0)` as a statement whose
value is dropped, and the function falls through to the
`cheapest_logical_expression` lookup. -/
theorem c4_unexplored_row_count_is_zero :
    scanGroup.explored = false ∧
    scanGroup.start_expression = some scanMExpr ∧
    scanMExpr.row_count = U64_MAX ∧
    scanGroup.get_group_row_count = 0 ∧
    U64_MAX ≠ 0 := by
  refine ⟨rfl, rfl, rfl, rfl, by decide⟩

/-- **C6.** Registering one derived expression `m` into origin group
`g` (`add_new_mexprs`): when `m`'s fingerprint is absent from the memo,
the memo gains the binding of that fingerprint to `g` and `m` is
appended to `g`'s unexplored queue, with every other part of the state
unchanged; when the fingerprint is present, the state is untouched. -/
theorem c6_register_derived (g : GroupId) (m : MExpr) (s : State) :
    (acontains s.memo m.hash = false →
      (add_new_mexprs g [m] s).memo = (m.hash, g) :: s.memo ∧
      alookup (add_new_mexprs g [m] s).memo m.hash = some g ∧
      ((add_new_mexprs g [m] s).getG g).unexplored
        = (s.getG g).unexplored ++ [m] ∧
      ((add_new_mexprs g [m] s).getG g).equivalent = (s.getG g).equivalent ∧
      ((add_new_mexprs g [m] s).getG g).explored = (s.getG g).explored ∧
      ((add_new_mexprs g [m] s).getG g).min_cost = (s.getG g).min_cost ∧
      ((add_new_mexprs g [m] s).getG g).start_expression
        = (s.getG g).start_expression ∧
      ((add_new_mexprs g [m] s).getG g).cheapest_logical_expression
        = (s.getG g).cheapest_logical_expression ∧
      (∀ g', g' ≠ g → (add_new_mexprs g [m] s).getG g' = s.getG g') ∧
      (add_new_mexprs g [m] s).next = s.next) ∧
    (acontains s.memo m.hash = true → add_new_mexprs g [m] s = s) := by
  constructor
  · intro habs
    have hG : ∀ g', g' ≠ g → (add_new_mexprs g [m] s).getG g' = s.getG g' := by
      intro g' hne
      simp [add_new_mexprs, habs, pushUnexplored, State.setG, State.getG, hne]
    exact ⟨by simp [add_new_mexprs, habs, pushUnexplored, State.setG],
      by simp [add_new_mexprs, habs, pushUnexplored, State.setG, alookup],
      by simp [add_new_mexprs, habs, pushUnexplored, State.setG, State.getG],
      by simp [add_new_mexprs, habs, pushUnexplored, State.setG, State.getG],
      by simp [add_new_mexprs, habs, pushUnexplored, State.setG, State.getG],
      by simp [add_new_mexprs, habs, pushUnexplored, State.setG, State.getG],
      by simp [add_new_mexprs, habs, pushUnexplored, State.setG, State.getG],
      by simp [add_new_mexprs, habs, pushUnexplored, State.setG, State.getG],
      hG,
      by simp [add_new_mexprs, habs, pushUnexplored, State.setG]⟩
  · intro hpres
    simp [add_new_mexprs, hpres]

/-- Witness for C6: a fresh expression against an empty memo (absent
case) and the same expression against a memo already holding its
fingerprint (present case). -/
theorem c6_register_derived_witness :
    ((add_new_mexprs 0 [scanMExpr] emptyState).memo
        = (scanMExpr.hash, 0) :: emptyState.memo ∧
      alookup (add_new_mexprs 0 [scanMExpr] emptyState).memo scanMExpr.hash
        = some 0) ∧
    add_new_mexprs 0 [scanMExpr]
        { emptyState with memo := [(scanMExpr.hash, 5)] }
      = { emptyState with memo := [(scanMExpr.hash, 5)] } := by
  have h1 := (c6_register_derived 0 scanMExpr emptyState).1 (by rfl)
  have h2 := (c6_register_derived 0 scanMExpr
    { emptyState with memo := [(scanMExpr.hash, 5)] }).2 (by rfl)
  exact ⟨⟨h1.1, h1.2.1⟩, h2⟩

/-- **C8.** On a join expression with operand groups `[l, r]`,
commutativity emits exactly one expression, with the identical operator
payload and operands `[r, l]`; applied again it emits one expression
with operands `[l, r]` and the same fingerprint as the input (the
hypothesis `hh` says the input's cached fingerprint is the one
`build_with_node` computed for it). -/
theorem c8_commutativity_involutive (H : HashFn) (s : State) (m : MExpr)
    (l r : GroupId) (hj : m.op.isJoin = true) (hops : m.operands = [l, r])
    (hh : m.hash = H ([(s.getG l).get_group_hash, (s.getG r).get_group_hash],
      fpayload m.op)) :
    ∃ m2, apply_join_commutativity H s m = Except.ok [m2] ∧
      m2.op = m.op ∧ m2.operands = [r, l] ∧
      ∃ m3, apply_join_commutativity H s m2 = Except.ok [m3] ∧
        m3.op = m.op ∧ m3.operands = [l, r] ∧ m3.hash = m.hash := by
  obtain ⟨a, b, onl, f, jt, jc, sch, ne, hop⟩ :
      ∃ a b onl f jt jc sch ne, m.op = Node.join a b onl f jt jc sch ne := by
    cases hop : m.op <;> simp [Node.isJoin, hop] at hj
    exact ⟨_, _, _, _, _, _, _, _, rfl⟩
  refine ⟨build_with_node H s m.op [r, l], ?_, rfl, rfl,
    build_with_node H s m.op [l, r], ?_, rfl, rfl, ?_⟩
  · simp [apply_join_commutativity, hop, hops]
  · simp [apply_join_commutativity, build_with_node, hop]
  · simp [build_with_node, hh]

/-- Elements of `pairwiseNewEqualities orig l` are binary equalities
between members of `l` that are not syntactically in `orig`. -/
theorem pairwiseNewEqualities_mem (orig : List Expr) :
    ∀ (l : List Expr) (e : Expr), e ∈ pairwiseNewEqualities orig l →
      (∃ x ∈ l, ∃ y ∈ l, e = Expr.binary x BOp.eq y) ∧ e ∉ orig := by
  intro l
  induction l with
  | nil => intro e he; simp [pairwiseNewEqualities] at he
  | cons e0 rest ih =>
      intro e he
      simp only [pairwiseNewEqualities, List.mem_append] at he
      rcases he with he | he
      · rcases List.mem_filterMap.mp he with ⟨e1, he1, hsome⟩
        simp at hsome
        obtain ⟨hno, heq⟩ := hsome
        subst heq
        exact ⟨⟨e0, by simp, e1, by simp [he1], rfl⟩, hno⟩
      · obtain ⟨⟨x, hx, y, hy, hxy⟩, hno⟩ := ih e he
        exact ⟨⟨x, by simp [hx], y, by simp [hy], hxy⟩, hno⟩

/-- **C7 counterexample.**  The claim says the inferred equalities
exclude everything already present in the input up to a flip.  On input
`[a = b, c = b]` the source emits `b = c`, whose flip `c = b` is an
input element: the exclusion check of `infer_equalities` tests only the
exact generated orientation against the input set. -/
theorem c7_counterexample_flip_not_excluded :
    infer_equalities [eqE colA colB, eqE colC colB]
      = [eqE colA colC, eqE colB colC] ∧
    eqE colB colC ∈ infer_equalities [eqE colA colB, eqE colC colB] ∧
    flip_equality (eqE colB colC) ∈ [eqE colA colB, eqE colC colB] := by
  refine ⟨by decide, by decide, by decide⟩

/-- **C7 amended.**  `infer_equalities` returns only binary equalities
between expressions seen by the union-find, never one that is
syntactically present (same orientation) in the input — a flipped form
of an input equality may still appear — and on the claim's example
`[a = b, b = c, c = d]` it returns exactly `[a = c, a = d, b = d]`. -/
theorem c7_amended_inferred_equalities (preds : List Expr) (e : Expr)
    (he : e ∈ infer_equalities preds) :
    ((∃ x y, e = Expr.binary x BOp.eq y) ∧ e ∉ preds) ∧
    infer_equalities [eqE colA colB, eqE colB colC, eqE colC colD]
      = [eqE colA colC, eqE colA colD, eqE colB colD] := by
  refine ⟨?_, by decide⟩
  unfold infer_equalities at he
  set groups := (preds.foldl
    (fun uf e =>
      match e with
      | Expr.binary left BOp.eq right => uf.union left right
      | _ => uf)
    UnionFind.empty).get_equivalence_classes with hg
  clear hg
  have main : ∀ (l : List (Expr × List Expr)) (acc : List Expr),
      (∀ x ∈ acc, (∃ x1 y1, x = Expr.binary x1 BOp.eq y1) ∧ x ∉ preds) →
      e ∈ l.foldl
        (fun acc g =>
          if g.2.length < 2 then acc
          else acc ++ pairwiseNewEqualities preds g.2) acc →
      (∃ x y, e = Expr.binary x BOp.eq y) ∧ e ∉ preds := by
    intro l
    induction l with
    | nil => intro acc hacc he'; exact hacc e he'
    | cons g rest ih =>
        intro acc hacc he'
        simp only [List.foldl] at he'
        by_cases hlen : g.2.length < 2
        · exact ih acc hacc (by simpa [hlen] using he')
        · refine ih _ ?_ (by simpa [hlen] using he')
          intro x hx
          rcases List.mem_append.mp hx with hx | hx
          · exact hacc x hx
          · obtain ⟨⟨x1, _, y1, _, hxy⟩, hno⟩ :=
              pairwiseNewEqualities_mem preds g.2 x hx
            exact ⟨⟨x1, y1, hxy⟩, hno⟩
  exact main groups [] (by simp) he

/-- Witness for C7 (amended) at `preds = [a = b, c = b]` and the output
element `a = c`. -/
theorem c7_amended_inferred_equalities_witness :
    ((∃ x y, eqE colA colC = Expr.binary x BOp.eq y) ∧
      eqE colA colC ∉ [eqE colA colB, eqE colC colB]) ∧
    infer_equalities [eqE colA colB, eqE colB colC, eqE colC colD]
      = [eqE colA colC, eqE colA colD, eqE colB colD] :=
  c7_amended_inferred_equalities [eqE colA colB, eqE colC colB]
    (eqE colA colC) (by decide)

/-- One step of the selectivity loop multiplies in exactly the
per-equality selectivity of the pair (1 when unresolvable or absent). -/
theorem selectivity_step_eq (total : ℚ) (p : Expr × Expr) :
    (match tableOfExpr p.1, tableOfExpr p.2 with
      | some left, some right =>
          match alookup SELECTIVITY_MAP (left, right) with
          | some s => total * s
          | none =>
              match alookup SELECTIVITY_MAP (right, left) with
              | some s => total * s
              | none => total
      | _, _ => total) = total * selectivityOfPair p := by
  unfold selectivityOfPair
  cases h1 : tableOfExpr p.1 with
  | none => simp
  | some left =>
    cases h2 : tableOfExpr p.2 with
    | none => simp
    | some right =>
      cases h3 : alookup SELECTIVITY_MAP (left, right) with
      | some s => simp [h3]
      | none =>
        cases h4 : alookup SELECTIVITY_MAP (right, left) with
        | some s => simp [h3, h4]
        | none => simp [h3, h4]

/-- `get_join_selectivity` is the product of per-equality selectivities
over the unique-equality representatives. -/
theorem get_join_selectivity_eq_amended (join_on : List (Expr × Expr)) :
    get_join_selectivity join_on = amended_join_selectivity join_on := by
  unfold get_join_selectivity amended_join_selectivity
  generalize get_unique_equalities join_on = l
  have main : ∀ (l : List (Expr × Expr)) (acc : ℚ),
      l.foldl
        (fun total p =>
          match tableOfExpr p.1, tableOfExpr p.2 with
          | some left, some right =>
              match alookup SELECTIVITY_MAP (left, right) with
              | some s => total * s
              | none =>
                  match alookup SELECTIVITY_MAP (right, left) with
                  | some s => total * s
                  | none => total
          | _, _ => total) acc
        = acc * (l.map selectivityOfPair).prod := by
    intro l
    induction l with
    | nil => intro acc; simp
    | cons p rest ih =>
        intro acc
        simp only [List.foldl, List.map, List.prod_cons]
        rw [selectivity_step_eq, ih, mul_assoc]
  simpa using main l 1

/-- **C3 counterexample.**  The claim computes `ρ` as the product over
the join's equalities; the source multiplies one selectivity per
union-find class of the `on`-list.  For the transitively linked list
`t1.a1 = t2.a2, t2.a2 = t3.a3` over two 1000-row operand groups the
claim predicts `⌊10⁻⁶ · 10⁶⌋ = 1` while `update_cost_and_rowcount`
assigns `⌊10⁻³ · 10⁶⌋ = 1000`. -/
theorem c3_counterexample_transitive_on_list :
    (update_cost_and_rowcount K0 c3state c3m).row_count = 1000 ∧
    claimed_join_row_count c3onList [1000, 1000] = 1 ∧
    (1000 : Nat) ≠ 1 :=
  ⟨by with_unfolding_all decide, by with_unfolding_all decide, by decide⟩

/-- **C3 amended.**  For an inner-join expression, the assigned row
count is `⌊ρ · ∏ R_i⌋` — exactly `∏ R_i` when `ρ = 1` (the cross-join
reading) — where `ρ` is the product of per-equality selectivities over
one representative equality per union-find class of the `on`-list
(`get_unique_equalities`), each selectivity looked up in the configured
table under the unordered pair of participating table names and 1.0
when absent or unresolvable. -/
theorem c3_amended_join_row_count (K : Consts) (s : State) (m : MExpr)
    (l r : Node) (onl : List (Expr × Expr)) (f : Option Expr)
    (jt : JoinType) (jc : JoinConstraint) (sch : Schema)
    (ne : NullEquality) (hop : m.op = Node.join l r onl f jt jc sch ne) :
    get_join_selectivity onl = amended_join_selectivity onl ∧
    (update_cost_and_rowcount K s m).row_count =
      (if amended_join_selectivity onl = 1 then
        (m.operands.map (fun g => (s.getG g).get_group_row_count)).prod
      else (amended_join_selectivity onl *
        ((m.operands.map (fun g => (s.getG g).get_group_row_count)).prod : ℚ)).floor.toNat) := by
  refine ⟨get_join_selectivity_eq_amended onl, ?_⟩
  have hfoldl : ∀ (l : List Nat),
      l.foldl (· * ·) 1 = l.prod := by
    intro l
    rw [List.prod_eq_foldl]
  simp only [update_cost_and_rowcount, hop]
  rw [hfoldl, get_join_selectivity_eq_amended]
  by_cases hρ : amended_join_selectivity onl = 1 <;> simp [hρ]

/-- Witness for C3 (amended) at the concrete join `c3m`. -/
theorem c3_amended_join_row_count_witness :
    get_join_selectivity c3onList = amended_join_selectivity c3onList ∧
    (update_cost_and_rowcount K0 c3state c3m).row_count =
      (if amended_join_selectivity c3onList = 1 then
        (c3m.operands.map (fun g => (c3state.getG g).get_group_row_count)).prod
      else (amended_join_selectivity c3onList *
        ((c3m.operands.map (fun g => (c3state.getG g).get_group_row_count)).prod : ℚ)).floor.toNat) :=
  c3_amended_join_row_count K0 c3state c3m Node.defaultNode Node.defaultNode
    c3onList none JoinType.inner JoinConstraint.onC 0
    NullEquality.nullEqualsNothing rfl

/-- **C2 counterexample.**  When the equi-join key oracle fails on a
variant, the associativity rule does not skip the variant: the source
unwraps the splitter's `Result`, so the error is a panic that aborts
the whole exploration (here: a concrete scenario with one left-join
variant, all schemas present, and an always-failing oracle). -/
theorem c2_counterexample_splitter_error_panics :
    apply_join_associativity H0 fvekpErr bjsOk c2m c2state
      = Except.error "split_eq_and_noneq_join_predicate unwrap" ∧
    run H0 fvekpErr bjsOk K0 10 (Task.exploreT 4) c2state
      = XR.panicked "split_eq_and_noneq_join_predicate unwrap" :=
  ⟨rfl, rfl⟩

/-- **C2 amended.**  A missing schema does get the per-variant `skip
and continue` treatment: (1) the per-variant body returns its
accumulator unchanged whenever the variant's inner right group (`B`)
resolves no schema, and (2) when the current join's right group (`C`)
resolves no schema, the whole rule application returns no expressions
and leaves the state untouched.  (An equi-join splitter error, by
contrast, panics — see the counterexample.) -/
theorem c2_amended_missing_schema_skips :
    (∀ (H : HashFn) (fvekp : EquijoinOracle) (bjs : JoinSchemaOracle)
        (cj : Node) (rg : GroupId) (acc : List MExpr × State) (v : MExpr)
        (a b : Node) (onl : List (Expr × Expr)) (f : Option Expr)
        (jt : JoinType) (jc : JoinConstraint) (sch : Schema)
        (ne : NullEquality) (a2 b2 : Node) (onl2 : List (Expr × Expr))
        (f2 : Option Expr) (jt2 : JoinType) (jc2 : JoinConstraint)
        (sch2 : Schema) (ne2 : NullEquality)
        (ll lr : GroupId) (rest : List GroupId),
        v.op = Node.join a b onl f jt jc sch ne →
        cj = Node.join a2 b2 onl2 f2 jt2 jc2 sch2 ne2 →
        v.operands = ll :: lr :: rest →
        groupStartSchema acc.2 lr = none →
        assocStep H fvekp bjs cj rg acc v = Except.ok acc) ∧
    (∀ (H : HashFn) (fvekp : EquijoinOracle) (bjs : JoinSchemaOracle)
        (m : MExpr) (s : State) (lg rg : GroupId) (rest : List GroupId)
        (a b : Node) (onl : List (Expr × Expr)) (f : Option Expr)
        (jt : JoinType) (jc : JoinConstraint) (sch : Schema)
        (ne : NullEquality),
        m.op = Node.join a b onl f jt jc sch ne →
        m.operands = lg :: rg :: rest →
        groupStartSchema s rg = none →
        (∀ v ∈ (s.getG lg).equivalent, v.op.isJoin = true →
          ∃ x y t, v.operands = x :: y :: t) →
        apply_join_associativity H fvekp bjs m s = Except.ok ([], s)) := by
  have stepSkip : ∀ (H : HashFn) (fvekp : EquijoinOracle)
      (bjs : JoinSchemaOracle) (cj : Node) (rg : GroupId)
      (acc : List MExpr × State) (v : MExpr)
      (a b : Node) (onl : List (Expr × Expr)) (f : Option Expr)
      (jt : JoinType) (jc : JoinConstraint) (sch : Schema)
      (ne : NullEquality) (a2 b2 : Node) (onl2 : List (Expr × Expr))
      (f2 : Option Expr) (jt2 : JoinType) (jc2 : JoinConstraint)
      (sch2 : Schema) (ne2 : NullEquality)
      (ll lr : GroupId) (rest : List GroupId),
      v.op = Node.join a b onl f jt jc sch ne →
      cj = Node.join a2 b2 onl2 f2 jt2 jc2 sch2 ne2 →
      v.operands = ll :: lr :: rest →
      (groupStartSchema acc.2 lr = none ∨ groupStartSchema acc.2 rg = none) →
      assocStep H fvekp bjs cj rg acc v = Except.ok acc := by
    intro H fvekp bjs cj rg acc v a b onl f jt jc sch ne a2 b2 onl2 f2 jt2
      jc2 sch2 ne2 ll lr rest hv hcj hvops hmiss
    simp only [assocStep, hv, hcj, hvops]
    cases hst : (acc.2.getG lr).start_expression with
    | none => rfl
    | some st =>
        cases hsch : st.op.getSchema with
        | none => simp [hsch]
        | some scheme =>
            have hrmiss : groupStartSchema acc.2 rg = none := by
              rcases hmiss with hmiss | hmiss
              · exact absurd hmiss (by simp [groupStartSchema, hst, hsch])
              · exact hmiss
            cases hst2 : (acc.2.getG rg).start_expression with
            | none => simp [hsch]
            | some st2 =>
                cases hsch2 : st2.op.getSchema with
                | none => simp [hsch, hsch2]
                | some scheme2 =>
                    exact absurd hrmiss
                      (by simp [groupStartSchema, hst2, hsch2])
  constructor
  · intro H fvekp bjs cj rg acc v a b onl f jt jc sch ne a2 b2 onl2 f2 jt2
      jc2 sch2 ne2 ll lr rest hv hcj hvops hmiss
    exact stepSkip H fvekp bjs cj rg acc v a b onl f jt jc sch ne a2 b2 onl2
      f2 jt2 jc2 sch2 ne2 ll lr rest hv hcj hvops (Or.inl hmiss)
  · intro H fvekp bjs m s lg rg rest a b onl f jt jc sch ne hm hops hrg hjoins
    simp only [apply_join_associativity, hm, hops]
    have hsub : ∀ v ∈ ((s.getG lg).equivalent).filter (fun x => x.op.isJoin),
        v.op.isJoin = true := by
      intro v hv
      exact (List.mem_filter.mp hv).2
    have hsub2 : ∀ v ∈ ((s.getG lg).equivalent).filter (fun x => x.op.isJoin),
        v ∈ (s.getG lg).equivalent := by
      intro v hv
      exact (List.mem_filter.mp hv).1
    by_cases hemp : (((s.getG lg).equivalent).filter (fun x => x.op.isJoin)).isEmpty
    · simp [hemp]
    · simp only [hemp, Bool.false_eq_true, if_false]
      have main : ∀ (l : List MExpr),
          (∀ v ∈ l, v.op.isJoin = true) →
          (∀ v ∈ l, ∃ x y t, v.operands = x :: y :: t) →
          ∀ (acc1 : List MExpr),
          l.foldlM (assocStep H fvekp bjs (Node.join a b onl f jt jc sch ne) rg)
              (acc1, s)
            = Except.ok (acc1, s) := by
        intro l
        induction l with
        | nil => intro _ _ acc1; rfl
        | cons v vs ih =>
            intro hj hop2 acc1
            obtain ⟨x, y, t, hxy⟩ := hop2 v (by simp)
            obtain ⟨a', b', onl', f', jt', jc', sch', ne', hv⟩ :
                ∃ a' b' onl' f' jt' jc' sch' ne',
                  v.op = Node.join a' b' onl' f' jt' jc' sch' ne' := by
              have := hj v (by simp)
              cases hvv : v.op <;> simp [Node.isJoin, hvv] at this
              exact ⟨_, _, _, _, _, _, _, _, rfl⟩
            have hstep := stepSkip H fvekp bjs
              (Node.join a b onl f jt jc sch ne) rg (acc1, s) v a' b' onl'
              f' jt' jc' sch' ne' a b onl f jt jc sch ne x y t hv rfl hxy
              (Or.inr hrg)
            rw [List.foldlM_cons, hstep]
            exact ih (fun w hw => hj w (by simp [hw]))
              (fun w hw => hop2 w (by simp [hw])) acc1
      exact main _ hsub
        (fun v hv => hjoins v (hsub2 v hv) (hsub v hv)) []

/-- Witness for C2 (amended), at the concrete scenario `c2stateNoRight`
(current right group has no schema): the per-variant body skips the
variant, and the whole rule application returns nothing and leaves the
state unchanged. -/
theorem c2_amended_missing_schema_skips_witness :
    assocStep H0 fvekpErr bjsOk c2m.op 1 ([], c2stateNoB) c2ljm
      = Except.ok ([], c2stateNoB) ∧
    apply_join_associativity H0 fvekpErr bjsOk c2m c2stateNoRight
      = Except.ok ([], c2stateNoRight) := by
  constructor
  · exact c2_amended_missing_schema_skips.1 H0 fvekpErr bjsOk c2m.op 1
      ([], c2stateNoB) c2ljm Node.defaultNode Node.defaultNode
      [(colA, colB)] none JoinType.inner JoinConstraint.onC 5
      NullEquality.nullEqualsNothing Node.defaultNode Node.defaultNode
      [(colC, colD)] none JoinType.inner JoinConstraint.onC 6
      NullEquality.nullEqualsNothing 2 3 [] rfl rfl rfl
      (by simp [groupStartSchema, c2stateNoB, State.getG,
        noSchemaGroup, defaultGroup, Node.getSchema])
  · refine c2_amended_missing_schema_skips.2 H0 fvekpErr bjsOk c2m
      c2stateNoRight 0 1 [] Node.defaultNode Node.defaultNode
      [(colC, colD)] none JoinType.inner JoinConstraint.onC 6
      NullEquality.nullEqualsNothing rfl rfl
      (by simp [groupStartSchema, c2stateNoRight, State.getG,
        noSchemaGroup, defaultGroup, Node.getSchema]) ?_
    intro v hv hj
    have : v = c2ljm := by
      simpa [c2stateNoRight, State.getG, defaultGroup] using hv
    subst this
    exact ⟨2, 3, [], rfl⟩

/-- Witness for C8 at the concrete join `c8m` over groups 0 and 1. -/
theorem c8_commutativity_involutive_witness :
    ∃ m2, apply_join_commutativity H0 c2state c8m = Except.ok [m2] ∧
      m2.op = c8m.op ∧ m2.operands = [1, 0] ∧
      ∃ m3, apply_join_commutativity H0 c2state m2 = Except.ok [m3] ∧
        m3.op = c8m.op ∧ m3.operands = [0, 1] ∧ m3.hash = c8m.hash :=
  c8_commutativity_involutive H0 c2state c8m 0 1 rfl rfl rfl

/-! ## Lemmas towards the exploration invariant (claim C1) -/

theorem getG_setG_same (s : State) (g : GroupId) (d : GroupData) :
    (s.setG g d).getG g = d := by
  simp [State.setG, State.getG]

theorem getG_setG_other (s : State) (g g' : GroupId) (d : GroupData)
    (h : g' ≠ g) : (s.setG g d).getG g' = s.getG g' := by
  simp [State.setG, State.getG, h]

theorem setG_next (s : State) (g : GroupId) (d : GroupData) :
    (s.setG g d).next = s.next := rfl

theorem setG_memo (s : State) (g : GroupId) (d : GroupData) :
    (s.setG g d).memo = s.memo := rfl

theorem Cost.blt_trans {a b c : Cost} (h1 : Cost.blt a b = true)
    (h2 : Cost.blt b c = true) : Cost.blt a c = true := by
  cases a <;> cases b <;> cases c <;>
    simp [Cost.blt] at h1 h2 ⊢ <;> exact lt_trans h1 h2

theorem Cost.blt_asymm {a b : Cost} (h1 : Cost.blt a b = true) :
    Cost.blt b a = false := by
  cases a <;> cases b <;> simp [Cost.blt] at h1 ⊢ <;> exact le_of_lt h1

theorem Cost.ble_refl (a : Cost) : Cost.ble a a = true := by
  cases a <;> simp [Cost.ble, Cost.blt]

theorem Cost.blt_of_blt_of_ble {a b c : Cost} (h1 : Cost.blt c a = true)
    (h2 : Cost.ble a b = true) : Cost.blt c b = true := by
  cases a <;> cases b <;> cases c <;>
    simp [Cost.blt, Cost.ble] at h1 h2 ⊢ <;>
    exact lt_of_lt_of_le h1 h2

theorem Cost.ble_trans {a b c : Cost} (h1 : Cost.ble a b = true)
    (h2 : Cost.ble b c = true) : Cost.ble a c = true := by
  by_cases h : Cost.blt c a = true
  · have := Cost.blt_of_blt_of_ble h h1
    unfold Cost.ble at h2
    rw [this] at h2
    cases h2
  · unfold Cost.ble
    simp at h
    simp [h]

theorem cheapStep_spec (init : Option MExpr) (e : MExpr) :
    ∃ j, cheapStep init e = some j ∧ (j = e ∨ init = some j) ∧
      Cost.ble j.cost e.cost = true ∧
      ∀ i, init = some i → Cost.ble j.cost i.cost = true := by
  cases init with
  | none => exact ⟨e, rfl, Or.inl rfl, Cost.ble_refl _, by simp⟩
  | some c =>
      by_cases hb : Cost.blt e.cost c.cost = true
      · refine ⟨e, by simp [cheapStep, hb], Or.inl rfl, Cost.ble_refl _, ?_⟩
        intro i hi
        cases hi
        simp [Cost.ble, Cost.blt_asymm hb]
      · have hb' : Cost.blt e.cost c.cost = false := by simpa using hb
        refine ⟨c, by simp [cheapStep, hb'], Or.inr rfl, ?_, ?_⟩
        · simp [Cost.ble, hb']
        · intro i hi
          cases hi
          exact Cost.ble_refl _

theorem cheapestFold_spec (l : List MExpr) :
    ∀ init,
    (cheapestFold l init = none → l = [] ∧ init = none) ∧
    (∀ m, cheapestFold l init = some m →
      (m ∈ l ∨ init = some m) ∧
      (∀ x ∈ l, Cost.ble m.cost x.cost = true) ∧
      (∀ i, init = some i → Cost.ble m.cost i.cost = true)) := by
  induction l with
  | nil =>
      intro init
      refine ⟨fun h => ⟨rfl, h⟩, ?_⟩
      intro m hm
      refine ⟨Or.inr hm, by simp, ?_⟩
      intro i hi
      rw [hi] at hm
      cases hm
      exact Cost.ble_refl _
  | cons e rest ih =>
      intro init
      obtain ⟨j, hj, hjmem, hje, hjinit⟩ := cheapStep_spec init e
      have hfold : cheapestFold (e :: rest) init = cheapestFold rest (some j) := by
        unfold cheapestFold
        rw [List.foldl_cons, hj]
      constructor
      · intro h
        rw [hfold] at h
        exact absurd ((ih (some j)).1 h).2 (by simp)
      · intro m hm
        rw [hfold] at hm
        obtain ⟨hmem, hmin, hinit⟩ := (ih (some j)).2 m hm
        have hmj : Cost.ble m.cost j.cost = true := hinit j rfl
        refine ⟨?_, ?_, ?_⟩
        · rcases hmem with h | h
          · exact Or.inl (List.mem_cons_of_mem _ h)
          · cases Option.some_inj.mp h
            rcases hjmem with h2 | h2
            · exact Or.inl (by simp [h2])
            · exact Or.inr h2
        · intro x hx
          rcases List.mem_cons.mp hx with h | h
          · exact h ▸ Cost.ble_trans hmj hje
          · exact hmin x h
        · intro i hi
          exact Cost.ble_trans hmj (hjinit i hi)

theorem set_explored_eq (g : GroupData) :
    g.set_explored =
      { g with
        explored := true
        cheapest_logical_expression := cheapestFold g.equivalent
          g.cheapest_logical_expression
        min_cost := ((cheapestFold g.equivalent
          g.cheapest_logical_expression).map MExpr.cost).getD (Cost.val 0) } :=
  rfl

/-- `set_explored` marks the group explored, keeps both lists and the
start expression, caches a cheapest expression that belongs to
`equivalent` (when the scan is seeded consistently) and a `min_cost`
that is minimal over `equivalent`. -/
theorem set_explored_spec (g : GroupData)
    (hch : g.cheapest_logical_expression = none ∨
      ∃ m ∈ g.equivalent, g.cheapest_logical_expression = some m) :
    g.set_explored.explored = true ∧
    g.set_explored.unexplored = g.unexplored ∧
    g.set_explored.equivalent = g.equivalent ∧
    g.set_explored.start_expression = g.start_expression ∧
    MinCostOk g.set_explored ∧
    (g.set_explored.cheapest_logical_expression = none ∨
      ∃ m ∈ g.set_explored.equivalent,
        g.set_explored.cheapest_logical_expression = some m) := by
  rw [set_explored_eq]
  refine ⟨rfl, rfl, rfl, rfl, ?_, ?_⟩
  · cases hr : cheapestFold g.equivalent g.cheapest_logical_expression with
    | none =>
        obtain ⟨hl, _⟩ := (cheapestFold_spec _ _).1 hr
        exact Or.inl ⟨hl, by simp [hr]⟩
    | some m =>
        obtain ⟨hmem, hmin, _⟩ := (cheapestFold_spec _ _).2 m hr
        have hmemE : m ∈ g.equivalent := by
          rcases hmem with h | h
          · exact h
          · rcases hch with hc | ⟨m', hm', hc⟩
            · rw [hc] at h; cases h
            · rw [hc] at h
              cases Option.some_inj.mp h
              exact hm'
        exact Or.inr ⟨m, hmemE, by simp [hr], hmin⟩
  · cases hr : cheapestFold g.equivalent g.cheapest_logical_expression with
    | none => exact Or.inl rfl
    | some m =>
        obtain ⟨hmem, _, _⟩ := (cheapestFold_spec _ _).2 m hr
        rcases hmem with h | h
        · exact Or.inr ⟨m, h, rfl⟩
        · rcases hch with hc | ⟨m', hm', hc⟩
          · rw [hc] at h; cases h
          · rw [hc] at h
            cases Option.some_inj.mp h
            exact Or.inr ⟨m, hm', rfl⟩

/-- Explored flags only turning on preserves `ChildrenExplored`. -/
theorem ChildrenExplored.monoFlags {s s' : State} {m : MExpr}
    (hflag : ∀ c, (s.getG c).explored = true → (s'.getG c).explored = true)
    (h : ChildrenExplored s m) : ChildrenExplored s' m :=
  fun c hc => hflag c (h c hc)

/-- A larger exception set weakens the invariant. -/
theorem Inv.weaken {s : State} {X X' : GroupId → Prop}
    (hsub : ∀ g, X g → X' g) (h : Inv s X) : Inv s X' := by
  obtain ⟨h1, h2, h3, h4⟩ := h
  refine ⟨h1, h2, h3, ?_⟩
  intro g hg hex
  exact h4 g (fun hx => hg (hsub g hx)) hex

theorem Mono.rfl (s : State) : Mono s s := ⟨le_refl _, fun _ _ h => h⟩

theorem Mono.compMono {s1 s2 s3 : State} (h1 : Mono s1 s2) (h2 : Mono s2 s3) :
    Mono s1 s3 :=
  ⟨le_trans h1.1 h2.1,
   fun g hg hex => h2.2 g (lt_of_lt_of_le hg h1.1) (h1.2 g hg hex)⟩

/-- Characterization of a successful queue pop. -/
theorem popUnexplored_some {s : State} {g : GroupId} {m : MExpr}
    {s1 : State} (h : popUnexplored s g = some (m, s1)) :
    ∃ rest, (s.getG g).unexplored = m :: rest ∧
      s1 = s.setG g { s.getG g with unexplored := rest } := by
  unfold popUnexplored at h
  cases hq : (s.getG g).unexplored with
  | nil => rw [hq] at h; cases h
  | cons m0 rest =>
      rw [hq] at h
      simp at h
      obtain ⟨hm, hs⟩ := h
      subst hm
      exact ⟨rest, rfl, hs.symm⟩

/-- A failed pop means the queue is empty. -/
theorem popUnexplored_none {s : State} {g : GroupId}
    (h : popUnexplored s g = none) : (s.getG g).unexplored = [] := by
  unfold popUnexplored at h
  cases hq : (s.getG g).unexplored with
  | nil => rfl
  | cons m0 rest => rw [hq] at h; cases h

/-- `update_cost_and_rowcount` keeps the operator and the operands. -/
theorem update_preserves_shape (K : Consts) (s : State) (m : MExpr) :
    (update_cost_and_rowcount K s m).op = m.op ∧
    (update_cost_and_rowcount K s m).operands = m.operands := by
  unfold update_cost_and_rowcount
  cases m.op <;> simp

theorem ValidM.monoValid {s s' : State} {m : MExpr} (hnext : s.next ≤ s'.next)
    (h : ValidM s m) : ValidM s' m :=
  fun c hc => lt_of_lt_of_le (h c hc) hnext

theorem FreshShape.monoFresh {s s' : State} {d : GroupData}
    (hn : s.next ≤ s'.next) (h : FreshShape s d) : FreshShape s' d :=
  ⟨h.1, h.2.1, h.2.2.1, fun m hm => (h.2.2.2 m hm).monoValid hn⟩

theorem FP.refl (g : GroupId) (s : State) : FP g s s := by
  refine ⟨le_refl _, ⟨[], by simp, by simp⟩,
    fun g' _ => Or.inl (Eq.refl _), ?_, ?_⟩
  · intro g' _ _; rfl
  · intro h gid hl; exact Or.inr hl

theorem FP.compFP {g : GroupId} {s1 s2 s3 : State} (h1 : FP g s1 s2)
    (h2 : FP g s2 s3) : FP g s1 s3 := by
  obtain ⟨hn1, ⟨d1, hd1v, hd1⟩, hor1, hlt1, hm1⟩ := h1
  obtain ⟨hn2, ⟨d2, hd2v, hd2⟩, hor2, hlt2, hm2⟩ := h2
  refine ⟨le_trans hn1 hn2, ⟨d1 ++ d2, ?_, ?_⟩, ?_, ?_, ?_⟩
  · intro m hm
    rcases List.mem_append.mp hm with h | h
    · exact (hd1v m h).monoValid hn2
    · exact hd2v m h
  · rw [hd2, hd1]
    simp
  · intro g' hne
    rcases hor2 g' hne with h | h
    · rw [h]
      rcases hor1 g' hne with h' | h'
      · exact Or.inl h'
      · exact Or.inr (h'.monoFresh hn2)
    · exact Or.inr h
  · intro g' hlt hne
    rw [hlt2 g' (lt_of_lt_of_le hlt hn1) hne, hlt1 g' hlt hne]
  · intro h gid hl
    rcases hm2 h gid hl with h' | h'
    · exact Or.inl h'
    · rcases hm1 h gid h' with h'' | h''
      · exact Or.inl (lt_of_lt_of_le h'' hn2)
      · exact Or.inr h''

/-- A footprint step preserves the invariant (for exception sets
containing the origin group) and every already-allocated group's
explored flag. -/
theorem FP.preserves {g : GroupId} {s s' : State} {X : GroupId → Prop}
    (hfp : FP g s s') (hXg : X g) (hinv : Inv s X) :
    Inv s' X ∧ (∀ g' < s.next, (s'.getG g').explored = (s.getG g').explored) := by
  obtain ⟨hn, ⟨δ, hδv, hδ⟩, hor, hlt, hmemo⟩ := hfp
  obtain ⟨hch, hcp, ⟨hV1, hV2⟩, hX⟩ := hinv
  have hflag : ∀ g' < s.next, (s'.getG g').explored = (s.getG g').explored := by
    intro g' hg'
    by_cases he : g' = g
    · subst he; rw [hδ]
    · rw [hlt g' hg' he]
  have hrecsame : ∀ g', g' ≠ g →
      s'.getG g' = s.getG g' ∨ FreshShape s' (s'.getG g') := hor
  have hflagup : ∀ c, (s.getG c).explored = true → c < s.next →
      (s'.getG c).explored = true := by
    intro c hc hcn
    rw [hflag c hcn]
    exact hc
  refine ⟨⟨?_, ?_, ⟨?_, ?_⟩, ?_⟩, hflag⟩
  · -- GInvChildren
    intro g' m hm
    by_cases he : g' = g
    · subst he
      rw [hδ] at hm
      have hm' : m ∈ (s.getG g').equivalent := hm
      intro c hc
      exact hflagup c (hch g' m hm' c hc) ((hV1 g').2 m hm' c hc)
    · rcases hrecsame g' he with h | h
      · rw [h] at hm
        intro c hc
        exact hflagup c (hch g' m hm c hc) ((hV1 g').2 m hm c hc)
      · rw [h.2.2.1] at hm
        cases hm
  · -- GInvCheapest
    intro g'
    by_cases he : g' = g
    · subst he
      rw [hδ]
      exact hcp g'
    · rcases hrecsame g' he with h | h
      · rw [h]
        exact hcp g'
      · exact Or.inl h.2.1
  · -- VInv queues and equivalents
    intro g'
    by_cases he : g' = g
    · subst he
      rw [hδ]
      constructor
      · intro m hm
        rcases List.mem_append.mp hm with h | h
        · exact ((hV1 g').1 m h).monoValid hn
        · exact hδv m h
      · intro m hm
        exact ((hV1 g').2 m hm).monoValid hn
    · rcases hrecsame g' he with h | h
      · rw [h]
        exact ⟨fun m hm => ((hV1 g').1 m hm).monoValid hn,
          fun m hm => ((hV1 g').2 m hm).monoValid hn⟩
      · refine ⟨fun m hm => h.2.2.2 m hm, ?_⟩
        rw [h.2.2.1]
        intro m hm
        cases hm
  · -- VInv memo
    intro h gid hl
    rcases hmemo h gid hl with h' | h'
    · exact h'
    · exact lt_of_lt_of_le (hV2 h gid h') hn
  · -- XInv
    intro g' hg' hex
    by_cases he : g' = g
    · exact absurd hXg (he ▸ hg')
    · rcases hrecsame g' he with h | h
      · rw [h] at hex ⊢
        exact hX g' hg' hex
      · rw [h.1] at hex
        cases hex

/-- One `add_new_mexprs` iteration (memo test, bind, queue push) is a
footprint step on the origin group. -/
theorem add_step_FP (g : GroupId) (m : MExpr) (s : State)
    (hm : ValidM s m) (hg : g < s.next) :
    FP g s (if acontains s.memo m.hash then s
      else pushUnexplored { s with memo := (m.hash, g) :: s.memo } g m) := by
  by_cases hc : acontains s.memo m.hash
  · simp only [hc, if_true]
    exact FP.refl g s
  · simp only [hc, if_false]
    refine ⟨le_refl _, ⟨[m], ?_, ?_⟩, ?_, ?_, ?_⟩
    · intro x hx
      cases List.mem_singleton.mp hx
      exact hm
    · simp [pushUnexplored, State.setG, State.getG]
    · intro g' hne
      refine Or.inl ?_
      simp [pushUnexplored, State.setG, State.getG, hne]
    · intro g' _ hne
      simp [pushUnexplored, State.setG, State.getG, hne]
    · intro h gid hl
      simp only [pushUnexplored, State.setG, State.getG] at hl
      by_cases hh : h = m.hash
      · subst hh
        simp [alookup] at hl
        exact Or.inl (hl ▸ hg)
      · simp [alookup, hh] at hl
        exact Or.inr hl

/-- `add_new_mexprs` is a footprint step on the origin group. -/
theorem add_new_FP (g : GroupId) (l : List MExpr) :
    ∀ (s : State), (∀ m ∈ l, ValidM s m) → g < s.next →
    FP g s (add_new_mexprs g l s) := by
  induction l with
  | nil => intro s _ _; exact FP.refl g s
  | cons m rest ih =>
      intro s hv hg
      have hstep := add_step_FP g m s (hv m (by simp)) hg
      have hnext := hstep.1
      have hrest := ih _
        (fun x hx => ((hv x (by simp [hx])).monoValid hnext))
        (lt_of_lt_of_le hg hnext)
      have : add_new_mexprs g (m :: rest) s
          = add_new_mexprs g rest
            (if acontains s.memo m.hash then s
              else pushUnexplored { s with memo := (m.hash, g) :: s.memo } g m) := by
        simp [add_new_mexprs]
      rw [this]
      exact hstep.compFP hrest

/-- `gen_or_get_from_memo` is a footprint step (on any group `g` below
the allocation bound), and yields an allocated handle. -/
theorem gen_or_get_FP (g : GroupId) (m : MExpr) (s : State)
    (hm : ValidM s m) (hg : g < s.next)
    (hmv : ∀ h gid, alookup s.memo h = some gid → gid < s.next) :
    FP g s (gen_or_get_from_memo m s).2 ∧
    (gen_or_get_from_memo m s).1 < (gen_or_get_from_memo m s).2.next := by
  unfold gen_or_get_from_memo
  cases hl : alookup s.memo m.hash with
  | some gid =>
      exact ⟨FP.refl g s, hmv m.hash gid hl⟩
  | none =>
      constructor
      · refine ⟨by simp, ⟨[], by simp, ?_⟩, ?_, ?_, ?_⟩
        · have hne : g ≠ s.next := Nat.ne_of_lt hg
          simp [State.getG, hne]
        · intro g' hne
          by_cases hfresh : g' = s.next
          · subst hfresh
            refine Or.inr ?_
            simp only [State.getG, if_pos rfl]
            refine ⟨rfl, rfl, rfl, ?_⟩
            intro x hx
            cases List.mem_singleton.mp
              (by simpa [GroupData.from_mexpr, GroupData.new] using hx)
            exact hm.monoValid (by simp)
          · refine Or.inl ?_
            simp [State.getG, hfresh]
        · intro g' hlt _
          have hne : g' ≠ s.next := Nat.ne_of_lt hlt
          simp [State.getG, hne]
        · intro h gid hl'
          simp only [alookup] at hl'
          by_cases hh : h = m.hash
          · subst hh
            simp at hl'
            exact Or.inl (by simp [← hl'])
          · simp [hh] at hl'
            exact Or.inr hl'
      · simp

/-- The per-variant associativity body is a footprint step on any
allocated group: it changes the state only through `gen_or_get_from_memo`
and emits only expressions over allocated groups. -/
theorem assocStep_FP (H : HashFn) (fvekp : EquijoinOracle)
    (bjs : JoinSchemaOracle) (g : GroupId) (cj : Node) (rg : GroupId)
    (acc : List MExpr × State) (v : MExpr) (res : List MExpr × State)
    (hstep : assocStep H fvekp bjs cj rg acc v = Except.ok res)
    (hg : g < acc.2.next)
    (hv : ∀ c ∈ v.operands, c < acc.2.next)
    (hrg : rg < acc.2.next)
    (hmv : ∀ h gid, alookup acc.2.memo h = some gid → gid < acc.2.next)
    (hacc : ∀ t ∈ acc.1, ValidM acc.2 t) :
    FP g acc.2 res.2 ∧ (∀ t ∈ res.1, ValidM res.2 t) := by
  unfold assocStep at hstep
  cases hvo : v.op <;> rw [hvo] at hstep <;>
    try (cases hstep; exact ⟨FP.refl _ _, hacc⟩)
  cases hcjo : cj <;> rw [hcjo] at hstep <;>
    try (cases hstep; exact ⟨FP.refl _ _, hacc⟩)
  rename_i la lb lon lf ljt ljc lsch lne ca cb con cf cjt cjc csch cne
  dsimp only [] at hstep
  split at hstep
  case _ left_l left_r rest hops =>
    have hll : left_l < acc.2.next := hv left_l (by simp [hops])
    have hlr : left_r < acc.2.next := hv left_r (by simp [hops])
    split at hstep
    · cases hstep; exact ⟨FP.refl _ _, hacc⟩
    · split at hstep
      · cases hstep; exact ⟨FP.refl _ _, hacc⟩
      · split at hstep
        · cases hstep; exact ⟨FP.refl _ _, hacc⟩
        · split at hstep
          · cases hstep; exact ⟨FP.refl _ _, hacc⟩
          · split at hstep
            · cases hstep
            · rename_i equi other hsplit
              split at hstep
              · cases hstep
              · rename_i nrs hbjs
                have hgen := gen_or_get_FP g
                  (build_with_node H acc.2
                    (Node.join Node.defaultNode Node.defaultNode equi none
                      JoinType.inner cjc nrs cne)
                    [left_r, rg]) acc.2
                  (by
                    intro c hc
                    simp [build_with_node] at hc
                    rcases hc with h | h
                    · exact h ▸ hlr
                    · exact h ▸ hrg)
                  hg hmv
                have hfp1 := hgen.1
                have hnr := hgen.2
                have haccv : ∀ t ∈ acc.1,
                    ValidM (gen_or_get_from_memo
                      (build_with_node H acc.2
                        (Node.join Node.defaultNode Node.defaultNode equi none
                          JoinType.inner cjc nrs cne)
                        [left_r, rg]) acc.2).2 t :=
                  fun t ht => (hacc t ht).monoValid hfp1.1
                split at hstep
                · cases hstep; exact ⟨hfp1, haccv⟩
                · split at hstep
                  · cases hstep; exact ⟨hfp1, haccv⟩
                  · split at hstep
                    · cases hstep
                    · split at hstep
                      · cases hstep
                      · cases hstep
                        refine ⟨hfp1, ?_⟩
                        intro t ht
                        rcases List.mem_append.mp ht with h | h
                        · exact haccv t h
                        · cases List.mem_singleton.mp h
                          intro c hc
                          simp [build_with_node] at hc
                          rcases hc with h' | h'
                          · subst h'
                            exact lt_of_lt_of_le hll hfp1.1
                          · subst h'
                            exact hnr
  case _ hops =>
    cases hstep

theorem FP.memoValid {g : GroupId} {s s' : State} (hfp : FP g s s')
    (hb : ∀ h gid, alookup s.memo h = some gid → gid < s.next) :
    ∀ h gid, alookup s'.memo h = some gid → gid < s'.next := by
  intro h gid hl
  rcases hfp.2.2.2.2 h gid hl with h' | h'
  · exact h'
  · exact lt_of_lt_of_le (hb h gid h') hfp.1

theorem FP.transport_VInv {g : GroupId} {s s' : State} (hfp : FP g s s')
    (hV : VInv s) : VInv s' := by
  have hmemo := hfp.memoValid hV.2
  obtain ⟨hn, ⟨δ, hδv, hδ⟩, hor, _, _⟩ := hfp
  refine ⟨?_, hmemo⟩
  intro g'
  by_cases he : g' = g
  · subst he
    rw [hδ]
    refine ⟨?_, fun m hm => ((hV.1 g').2 m hm).monoValid hn⟩
    intro m hm
    rcases List.mem_append.mp hm with h | h
    · exact ((hV.1 g').1 m h).monoValid hn
    · exact hδv m h
  · rcases hor g' he with h | h
    · rw [h]
      exact ⟨fun m hm => ((hV.1 g').1 m hm).monoValid hn,
        fun m hm => ((hV.1 g').2 m hm).monoValid hn⟩
    · refine ⟨fun m hm => h.2.2.2 m hm, ?_⟩
      rw [h.2.2.1]
      intro m hm
      cases hm

/-- The associativity rule as a whole is a footprint step on any
allocated group, and emits expressions over allocated groups only. -/
theorem assoc_FP (H : HashFn) (fvekp : EquijoinOracle)
    (bjs : JoinSchemaOracle) (g : GroupId) (m : MExpr) (s : State)
    (tops : List MExpr) (s' : State)
    (hassoc : apply_join_associativity H fvekp bjs m s = Except.ok (tops, s'))
    (hg : g < s.next) (hm : ValidM s m) (hV : VInv s) :
    FP g s s' ∧ ∀ t ∈ tops, ValidM s' t := by
  unfold apply_join_associativity at hassoc
  cases hvo : m.op <;> rw [hvo] at hassoc <;>
    try (cases hassoc; exact ⟨FP.refl _ _, by simp⟩)
  rename_i ja jb jon jf jjt jjc jsch jne
  dsimp only [] at hassoc
  split at hassoc
  · rename_i lg rg tl hops
    have hrg : rg < s.next := hm rg (by simp [hops])
    by_cases hemp :
        (((s.getG lg).equivalent).filter (fun x => x.op.isJoin)).isEmpty = true
    · rw [if_pos hemp] at hassoc
      cases hassoc
      exact ⟨FP.refl _ _, by simp⟩
    · rw [if_neg hemp] at hassoc
      have hvars : ∀ v ∈ ((s.getG lg).equivalent).filter
          (fun x => x.op.isJoin), ValidM s v := by
        intro v hv
        exact (hV.1 lg).2 v (List.mem_filter.mp hv).1
      have main : ∀ (l : List MExpr) (acc : List MExpr × State),
          (∀ v ∈ l, ValidM s v) →
          FP g s acc.2 →
          (∀ t ∈ acc.1, ValidM acc.2 t) →
          l.foldlM (assocStep H fvekp bjs
            (Node.join ja jb jon jf jjt jjc jsch jne) rg) acc
            = Except.ok (tops, s') →
          FP g s s' ∧ ∀ t ∈ tops, ValidM s' t := by
        intro l
        induction l with
        | nil =>
            intro acc _ hfp hval hfold
            cases hfold
            exact ⟨hfp, hval⟩
        | cons v vs ih =>
            intro acc hvl hfp hval hfold
            rw [List.foldlM_cons] at hfold
            cases hres : assocStep H fvekp bjs
                (Node.join ja jb jon jf jjt jjc jsch jne) rg acc v with
            | error e => rw [hres] at hfold; cases hfold
            | ok res =>
                rw [hres] at hfold
                have hstep := assocStep_FP H fvekp bjs g
                  (Node.join ja jb jon jf jjt jjc jsch jne) rg acc v res hres
                  (lt_of_lt_of_le hg hfp.1)
                  (fun c hc => lt_of_lt_of_le (hvl v (by simp) c hc) hfp.1)
                  (lt_of_lt_of_le hrg hfp.1)
                  (hfp.memoValid hV.2)
                  hval
                exact ih res (fun w hw => hvl w (by simp [hw]))
                  (hfp.compFP hstep.1) hstep.2 hfold
      exact main _ ([], s) hvars (FP.refl g s) (by simp) hassoc
  · cases hassoc

/-- Commutativity emits expressions over the input's operand groups. -/
theorem commut_valid (H : HashFn) (s : State) (m : MExpr) (t : List MExpr)
    (hc : apply_join_commutativity H s m = Except.ok t) (hm : ValidM s m) :
    ∀ x ∈ t, ValidM s x := by
  unfold apply_join_commutativity at hc
  cases hvo : m.op <;> rw [hvo] at hc <;>
    try (cases hc; intro x hx; cases hx)
  dsimp only [] at hc
  split at hc
  · rename_i l r tl hops
    cases hc
    intro x hx
    rw [List.mem_singleton] at hx
    subst hx
    intro c hcc
    simp [build_with_node] at hcc
    rcases hcc with h | h <;> rw [h]
    · exact hm r (by simp [hops])
    · exact hm l (by simp [hops])
  · cases hc

/-- A whole `apply_transformation_rules` call is a footprint step on
the origin group. -/
theorem rules_FP (H : HashFn) (fvekp : EquijoinOracle)
    (bjs : JoinSchemaOracle) (g : GroupId) (m : MExpr) (s s3 : State)
    (hr : apply_transformation_rules H fvekp bjs g m s = Except.ok s3)
    (hg : g < s.next) (hm : ValidM s m) (hV : VInv s) : FP g s s3 := by
  unfold apply_transformation_rules at hr
  cases hc : apply_join_commutativity H s m with
  | error e => rw [hc] at hr; cases hr
  | ok t1 =>
      rw [hc] at hr
      dsimp only [] at hr
      have ht1 : ∀ x ∈ t1, ValidM s x := commut_valid H s m t1 hc hm
      have hfp1 : FP g s (add_new_mexprs g t1 s) := add_new_FP g t1 s ht1 hg
      cases ha : apply_join_associativity H fvekp bjs m
          (add_new_mexprs g t1 s) with
      | error e => rw [ha] at hr; cases hr
      | ok p =>
          obtain ⟨tops, s2⟩ := p
          rw [ha] at hr
          have hV1 : VInv (add_new_mexprs g t1 s) := hfp1.transport_VInv hV
          have hfp2 := assoc_FP H fvekp bjs g m (add_new_mexprs g t1 s)
            tops s2 ha (lt_of_lt_of_le hg hfp1.1) (hm.monoValid hfp1.1) hV1
          have hfp3 : FP g s2 (add_new_mexprs g tops s2) :=
            add_new_FP g tops s2 hfp2.2
              (lt_of_lt_of_le hg (le_trans hfp1.1 hfp2.1.1))
          cases hr
          exact (hfp1.compFP hfp2.1).compFP hfp3

theorem mono_of_flags {s s' : State} (hn : s.next ≤ s'.next)
    (hf : ∀ g, g < s.next → (s'.getG g).explored = (s.getG g).explored) :
    Mono s s' :=
  ⟨hn, fun g hg hex => (hf g hg).symm ▸ hex⟩

/-- Replacing one group's record inside the exception set, keeping its
flag and cheapest pointer, shrinking the queue to valid entries, and at
most appending one valid child-explored expression to `equivalent`,
preserves the invariant. -/
theorem setG_inv {s : State} {X : GroupId → Prop} {g : GroupId}
    {d : GroupData} (hXg : X g)
    (hexp : d.explored = (s.getG g).explored)
    (hch : d.cheapest_logical_expression
      = (s.getG g).cheapest_logical_expression)
    (hq : ∀ m ∈ d.unexplored, ValidM s m)
    (heq : d.equivalent = (s.getG g).equivalent ∨
      ∃ m', d.equivalent = (s.getG g).equivalent ++ [m'] ∧ ValidM s m' ∧
        ChildrenExplored s m')
    (hinv : Inv s X) : Inv (s.setG g d) X := by
  obtain ⟨hC, hP, ⟨hV1, hV2⟩, hX⟩ := hinv
  have hflag : ∀ c, ((s.setG g d).getG c).explored = (s.getG c).explored := by
    intro c
    by_cases hc : c = g
    · subst hc
      rw [getG_setG_same]
      exact hexp
    · rw [getG_setG_other _ _ _ _ hc]
  have htrans : ∀ m, ChildrenExplored s m → ChildrenExplored (s.setG g d) m :=
    fun m hm => hm.monoFlags (fun c hc => (hflag c).symm ▸ hc)
  refine ⟨?_, ?_, ⟨?_, ?_⟩, ?_⟩
  · intro g' m hm
    by_cases hg' : g' = g
    · subst hg'
      rw [getG_setG_same] at hm
      rcases heq with he | ⟨m', he, _, hce⟩
      · rw [he] at hm
        exact htrans m (hC g' m hm)
      · rw [he] at hm
        rcases List.mem_append.mp hm with h | h
        · exact htrans m (hC g' m h)
        · cases List.mem_singleton.mp h
          exact htrans m hce
    · rw [getG_setG_other _ _ _ _ hg'] at hm
      exact htrans m (hC g' m hm)
  · intro g'
    by_cases hg' : g' = g
    · subst hg'
      rw [getG_setG_same, hch]
      rcases hP g' with h | ⟨m, hm, h⟩
      · exact Or.inl h
      · refine Or.inr ⟨m, ?_, h⟩
        rcases heq with he | ⟨m', he, _, _⟩
        · rw [he]; exact hm
        · rw [he]; exact List.mem_append.mpr (Or.inl hm)
    · rw [getG_setG_other _ _ _ _ hg']
      exact hP g'
  · intro g'
    have hnx : (s.setG g d).next = s.next := rfl
    by_cases hg' : g' = g
    · subst hg'
      rw [getG_setG_same]
      constructor
      · intro m hm
        exact fun c hc => (hq m hm c hc).trans_le (le_of_eq hnx.symm)
      · intro m hm
        rcases heq with he | ⟨m', he, hval, _⟩
        · rw [he] at hm
          exact fun c hc => ((hV1 g').2 m hm c hc).trans_le (le_of_eq hnx.symm)
        · rw [he] at hm
          rcases List.mem_append.mp hm with h | h
          · exact fun c hc => ((hV1 g').2 m h c hc).trans_le (le_of_eq hnx.symm)
          · cases List.mem_singleton.mp h
            exact fun c hc => (hval c hc).trans_le (le_of_eq hnx.symm)
    · rw [getG_setG_other _ _ _ _ hg']
      exact ⟨fun m hm c hc => ((hV1 g').1 m hm c hc),
        fun m hm c hc => ((hV1 g').2 m hm c hc)⟩
  · intro h gid hl
    exact hV2 h gid hl
  · intro g' hg' hex
    by_cases he : g' = g
    · exact absurd hXg (he ▸ hg')
    · rw [getG_setG_other _ _ _ _ he] at hex ⊢
      exact hX g' hg' hex

/-- Marking a group explored preserves the invariant (inside the
exception set) and finalizes that group's queue and cost cache. -/
theorem setExplored_inv {s : State} {X : GroupId → Prop} {g : GroupId}
    (hXg : X g) (hinv : Inv s X) :
    Inv (s.setG g (s.getG g).set_explored) X ∧
    ((s.setG g (s.getG g).set_explored).getG g).explored = true ∧
    ((s.setG g (s.getG g).set_explored).getG g).unexplored
      = (s.getG g).unexplored ∧
    MinCostOk ((s.setG g (s.getG g).set_explored).getG g) ∧
    Mono s (s.setG g (s.getG g).set_explored) := by
  obtain ⟨hC, hP, ⟨hV1, hV2⟩, hX⟩ := hinv
  obtain ⟨hexp, hque, heqv, hstart, hmin, hcheap⟩ :=
    set_explored_spec (s.getG g) (hP g)
  have hflag : ∀ c, (s.getG c).explored = true →
      ((s.setG g (s.getG g).set_explored).getG c).explored = true := by
    intro c hc
    by_cases he : c = g
    · subst he
      rw [getG_setG_same, hexp]
    · rw [getG_setG_other _ _ _ _ he]
      exact hc
  refine ⟨⟨?_, ?_, ⟨?_, ?_⟩, ?_⟩, ?_, ?_, ?_, ?_⟩
  · intro g' m hm
    by_cases hg' : g' = g
    · subst hg'
      rw [getG_setG_same, heqv] at hm
      exact (hC g' m hm).monoFlags hflag
    · rw [getG_setG_other _ _ _ _ hg'] at hm
      exact (hC g' m hm).monoFlags hflag
  · intro g'
    by_cases hg' : g' = g
    · subst hg'
      rw [getG_setG_same]
      exact hcheap
    · rw [getG_setG_other _ _ _ _ hg']
      exact hP g'
  · intro g'
    by_cases hg' : g' = g
    · subst hg'
      rw [getG_setG_same, hque, heqv]
      exact hV1 g'
    · rw [getG_setG_other _ _ _ _ hg']
      exact hV1 g'
  · exact hV2
  · intro g' hg' hex
    by_cases he : g' = g
    · exact absurd hXg (he ▸ hg')
    · rw [getG_setG_other _ _ _ _ he] at hex ⊢
      exact hX g' hg' hex
  · rw [getG_setG_same, hexp]
  · rw [getG_setG_same, hque]
  · rw [getG_setG_same]
    exact hmin
  · exact ⟨le_refl _, fun g' _ hex => hflag g' hex⟩

/-- The Hoare triple of the exploration interpreter, by induction on
fuel, simultaneously for the three task kinds: a normally returning
run preserves the invariant, only grows the explored set, and leaves
the driven group explored with a drained queue and a finalized
`min_cost`. -/
theorem run_spec (H : HashFn) (fvekp : EquijoinOracle)
    (bjs : JoinSchemaOracle) (K : Consts) : ∀ (fuel : Nat),
    (∀ (g : GroupId) (s s' : State) (X : GroupId → Prop),
      g < s.next → Inv s X →
      run H fvekp bjs K fuel (Task.exploreT g) s = XR.ok s' →
      Inv s' X ∧ Mono s s' ∧ (s'.getG g).explored = true) ∧
    (∀ (g : GroupId) (s s' : State) (X : GroupId → Prop),
      g < s.next → X g → Inv s X →
      run H fvekp bjs K fuel (Task.loopT g) s = XR.ok s' →
      Inv s' X ∧ Mono s s' ∧ (s'.getG g).explored = true ∧
      (s'.getG g).unexplored = [] ∧ MinCostOk (s'.getG g)) ∧
    (∀ (cs : List GroupId) (s s' : State) (X : GroupId → Prop),
      (∀ c ∈ cs, c < s.next) → Inv s X →
      run H fvekp bjs K fuel (Task.childrenT cs) s = XR.ok s' →
      Inv s' X ∧ Mono s s' ∧ ∀ c ∈ cs, (s'.getG c).explored = true) := by
  intro fuel
  induction fuel with
  | zero =>
      refine ⟨?_, ?_, ?_⟩
      · intro g s s' X _ _ hrun
        exact absurd hrun (by simp [run])
      · intro g s s' X _ _ _ hrun
        exact absurd hrun (by simp [run])
      · intro cs s s' X _ _ hrun
        exact absurd hrun (by simp [run])
  | succ fuel ih =>
      obtain ⟨ihE, ihL, ihC⟩ := ih
      refine ⟨?_, ?_, ?_⟩
      · -- exploreT
        intro g s s' X hg hinv hrun
        simp only [run] at hrun
        by_cases hex : (s.getG g).explored = true
        · rw [if_pos hex] at hrun
          cases hrun
          exact ⟨hinv, Mono.rfl s, hex⟩
        · rw [if_neg hex] at hrun
          obtain ⟨hinv', hmono, hexp', hque', hmc'⟩ :=
            ihL g s s' (fun x => x = g ∨ X x) hg (Or.inl rfl)
              (hinv.weaken (fun _ h => Or.inr h)) hrun
          refine ⟨⟨hinv'.1, hinv'.2.1, hinv'.2.2.1, ?_⟩, hmono, hexp'⟩
          intro g'' hng hexg
          by_cases he : g'' = g
          · subst he
            exact ⟨hque', hmc'⟩
          · exact hinv'.2.2.2 g''
              (fun h => h.elim (fun h1 => he h1) (fun h2 => hng h2)) hexg
      · -- loopT
        intro g s s' X hg hXg hinv hrun
        simp only [run] at hrun
        cases hpop : popUnexplored s g with
        | none =>
            rw [hpop] at hrun
            cases hrun
            have hq0 := popUnexplored_none hpop
            obtain ⟨hinv', hexp', hque', hmc', hmono'⟩ :=
              setExplored_inv hXg hinv
            exact ⟨hinv', hmono', hexp', by rw [hque', hq0], hmc'⟩
        | some p =>
            obtain ⟨m, s1⟩ := p
            rw [hpop] at hrun
            dsimp only [] at hrun
            obtain ⟨rest, hq, hs1⟩ := popUnexplored_some hpop
            have hvm : ValidM s m :=
              (hinv.2.2.1.1 g).1 m (by rw [hq]; simp)
            have hnext1 : s1.next = s.next := by rw [hs1]; rfl
            have hinv1 : Inv s1 X := by
              rw [hs1]
              exact setG_inv hXg rfl rfl
                (fun x hx => (hinv.2.2.1.1 g).1 x
                  (by rw [hq]; exact List.mem_cons_of_mem _ hx))
                (Or.inl rfl) hinv
            have hflag1 : ∀ c, (s1.getG c).explored = (s.getG c).explored := by
              intro c
              rw [hs1]
              by_cases he : c = g
              · subst he
                rw [getG_setG_same]
              · rw [getG_setG_other _ _ _ _ he]
            have hmono01 : Mono s s1 :=
              mono_of_flags (le_of_eq hnext1.symm) (fun c _ => hflag1 c)
            cases hcr : run H fvekp bjs K fuel (Task.childrenT m.operands) s1 with
            | ok s2 =>
                rw [hcr] at hrun
                dsimp only [] at hrun
                have hops1 : ∀ c ∈ m.operands, c < s1.next := by
                  rw [hnext1]
                  exact hvm
                obtain ⟨hinv2, hmono12, hkids⟩ :=
                  ihC m.operands s1 s2 X hops1 hinv1 hcr
                cases hrr : apply_transformation_rules H fvekp bjs g m s2 with
                | error e =>
                    rw [hrr] at hrun
                    dsimp only [] at hrun
                    cases hrun
                | ok s3 =>
                    rw [hrr] at hrun
                    dsimp only [] at hrun
                    have hg2 : g < s2.next :=
                      lt_of_lt_of_le (hnext1 ▸ hg) hmono12.1
                    have hvm2 : ValidM s2 m := by
                      intro c hc
                      exact lt_of_lt_of_le (hnext1 ▸ hvm c hc) hmono12.1
                    have hfp := rules_FP H fvekp bjs g m s2 s3 hrr hg2 hvm2
                      hinv2.2.2.1
                    obtain ⟨hinv3, hflags23⟩ := hfp.preserves hXg hinv2
                    have hshape := update_preserves_shape K s3 m
                    have hkids3 : ChildrenExplored s3
                        (update_cost_and_rowcount K s3 m) := by
                      intro c hc
                      rw [hshape.2] at hc
                      have hcn : c < s2.next :=
                        lt_of_lt_of_le (hnext1 ▸ hvm c hc) hmono12.1
                      rw [hflags23 c hcn]
                      exact hkids c hc
                    have hvalid3 : ValidM s3
                        (update_cost_and_rowcount K s3 m) := by
                      intro c hc
                      rw [hshape.2] at hc
                      exact lt_of_lt_of_le (hnext1 ▸ hvm c hc)
                        (le_trans hmono12.1 hfp.1)
                    have hinv4 : Inv (pushEquivalent s3 g
                        (update_cost_and_rowcount K s3 m)) X := by
                      unfold pushEquivalent
                      exact setG_inv hXg rfl rfl
                        (fun x hx => (hinv3.2.2.1.1 g).1 x hx)
                        (Or.inr ⟨update_cost_and_rowcount K s3 m, rfl,
                          hvalid3, hkids3⟩) hinv3
                    have hmono23 : Mono s2 s3 := mono_of_flags hfp.1 hflags23
                    have hmono34 : Mono s3
                        (pushEquivalent s3 g (update_cost_and_rowcount K s3 m)) := by
                      refine mono_of_flags (le_refl _) ?_
                      intro c _
                      unfold pushEquivalent
                      by_cases he : c = g
                      · subst he
                        rw [getG_setG_same]
                      · rw [getG_setG_other _ _ _ _ he]
                    have hg4 : g < (pushEquivalent s3 g
                        (update_cost_and_rowcount K s3 m)).next :=
                      lt_of_lt_of_le (hnext1 ▸ hg)
                        (le_trans hmono12.1 hfp.1)
                    obtain ⟨hinv', hmono4, hexp', hque', hmc'⟩ :=
                      ihL g (pushEquivalent s3 g
                        (update_cost_and_rowcount K s3 m)) s' X hg4 hXg
                        hinv4 hrun
                    exact ⟨hinv',
                      (((hmono01.compMono hmono12).compMono hmono23).compMono
                        hmono34).compMono hmono4,
                      hexp', hque', hmc'⟩
            | panicked msg => rw [hcr] at hrun; cases hrun
            | nofuel => rw [hcr] at hrun; cases hrun
      · -- childrenT
        intro cs s s' X hcs hinv hrun
        cases cs with
        | nil =>
            simp only [run] at hrun
            cases hrun
            exact ⟨hinv, Mono.rfl s, by simp⟩
        | cons c cs' =>
            simp only [run] at hrun
            cases hce : run H fvekp bjs K fuel (Task.exploreT c) s with
            | ok s1 =>
                rw [hce] at hrun
                dsimp only [] at hrun
                obtain ⟨hinv1, hmono1, hexpc⟩ :=
                  ihE c s s1 X (hcs c (by simp)) hinv hce
                obtain ⟨hinv', hmono2, hkids⟩ :=
                  ihC cs' s1 s' X
                    (fun c' hc' =>
                      lt_of_lt_of_le (hcs c' (by simp [hc'])) hmono1.1)
                    hinv1 hrun
                refine ⟨hinv', hmono1.compMono hmono2, ?_⟩
                intro c' hc'
                rcases List.mem_cons.mp hc' with h | h
                · subst h
                  exact hmono2.2 c'
                    (lt_of_lt_of_le (hcs c' (by simp)) hmono1.1) hexpc
                · exact hkids c' h
            | panicked msg => rw [hce] at hrun; cases hrun
            | nofuel => rw [hce] at hrun; cases hrun

/-- **C1.**  When `optimize` (that is, `explore` on the root group)
returns normally from a well-formed state (root allocated; no explored
group anywhere, or only consistently explored ones), every group
reachable from the root through operand references is explored with an
empty unexplored queue, its `min_cost` is the minimum cost over its
`equivalent` list (witnessed by a member; `0.0` for an empty list), and
every operand group of each of its equivalent expressions is itself
explored. -/
theorem c1_explore_invariants (H : HashFn) (fvekp : EquijoinOracle)
    (bjs : JoinSchemaOracle) (K : Consts) (fuel : Nat) (root : GroupId)
    (s s' : State)
    (hrun : optimize H fvekp bjs K fuel root s = XR.ok s')
    (hroot : root < s.next)
    (hinv : Inv s (fun _ => False)) :
    ∀ g, Reachable s' root g →
      (s'.getG g).explored = true ∧
      (s'.getG g).unexplored = [] ∧
      MinCostOk (s'.getG g) ∧
      ∀ m ∈ (s'.getG g).equivalent, ChildrenExplored s' m := by
  obtain ⟨hinv', _, hexp⟩ := (run_spec H fvekp bjs K fuel).1 root s s'
    (fun _ => False) hroot hinv hrun
  have hexpg : ∀ g0, Reachable s' root g0 → (s'.getG g0).explored = true := by
    intro g0 h0
    induction h0 with
    | refl => exact hexp
    | step hreach1 hmem hcop ih =>
        rename_i g1 m c
        have hq1 := (hinv'.2.2.2 g1 (fun h => h) ih).1
        rw [hq1, List.append_nil] at hmem
        exact hinv'.1 g1 m hmem c hcop
  intro g hreach
  refine ⟨hexpg g hreach, ?_, ?_, ?_⟩
  · exact (hinv'.2.2.2 g (fun h => h) (hexpg g hreach)).1
  · exact (hinv'.2.2.2 g (fun h => h) (hexpg g hreach)).2
  · intro m hm
    exact hinv'.1 g m hm

/-- Witness for C1: optimizing the one-group state `c1S0`. -/
theorem c1_explore_invariants_witness :
    (c1S1.getG 0).explored = true ∧
    (c1S1.getG 0).unexplored = [] ∧
    MinCostOk (c1S1.getG 0) ∧
    ∀ m ∈ (c1S1.getG 0).equivalent, ChildrenExplored c1S1 m := by
  have hinv : Inv c1S0 (fun _ => False) := by
    refine ⟨?_, ?_, ⟨?_, ?_⟩, ?_⟩
    · intro g m hm
      by_cases h : g = 0 <;>
        simp [c1S0, State.getG, h, GroupData.from_mexpr, GroupData.new,
          defaultGroup] at hm
    · intro g
      by_cases h : g = 0 <;>
        simp [c1S0, State.getG, h, GroupData.from_mexpr, GroupData.new,
          defaultGroup]
    · intro g
      constructor <;> intro m hm <;> by_cases h : g = 0 <;>
        simp [c1S0, State.getG, h, GroupData.from_mexpr, GroupData.new,
          defaultGroup] at hm <;>
        try (subst hm; intro c hc; simp [c1m] at hc)
    · intro h gid hl
      simp only [c1S0, alookup] at hl
      by_cases hh : h = 0
      · simp [hh] at hl
        simp [c1S0, ← hl]
      · simp [hh] at hl
    · intro g hng hex
      by_cases h : g = 0 <;>
        simp [c1S0, State.getG, h, GroupData.from_mexpr, GroupData.new,
          defaultGroup] at hex
  exact c1_explore_invariants H0 fvekpNone bjsOk K0 5 0 c1S0 c1S1 rfl
    (by decide) hinv 0 Reachable.refl

end Disagg
